import Mathlib

/-!
Verification development for the covdiff coverage-diff attribution pipeline
(`scripts/coverage_parser.py`, `scripts/coverage_analyzer.py`,
`scripts/export_viz_data.py`).  The Python functions are shallowly embedded
as executable Lean definitions over lists of table rows; RVAs and SQL
integers are modelled as `Int` (the super-root sentinel is `-1`), and SQL
`NULL`-able columns as `Option`.
-/

namespace CovDiff

/-! ## Coverage parser (`coverage_parser.py`, `parse_coverage_file`)

A parsed coverage line yields a module id and an unbounded hex integer
`value`; lines 124-136 of `coverage_parser.py` split it with
`upper_32 = (value >> 32) & 0xFFFFFFFF` and `lower_32 = value & 0xFFFFFFFF`
and dispatch to the edges table when `upper_32 != 0`, else to the blocks
table. -/

/-- A row produced for one coverage line: either an indirect-edge row
`(module_id, src_rva, dst_rva)` for `cov_S_edges` or a block-hit row
`(module_id, bb_rva)` for `cov_S_blocks`. -/
inductive CovEntry where
  | edge (module_id src_rva dst_rva : Nat)
  | block (module_id bb_rva : Nat)
  deriving DecidableEq, Repr

/-- Lines 124-136 of `parse_coverage_file`: split the parsed value and
dispatch on the upper 32 bits. -/
def dispatch_cov_value (module_id value : Nat) : CovEntry :=
  let upper_32 := (value >>> 32) &&& 0xFFFFFFFF
  let lower_32 := value &&& 0xFFFFFFFF
  if upper_32 ≠ 0 then
    CovEntry.edge module_id upper_32 lower_32
  else
    CovEntry.block module_id lower_32

/-! ## Visualization export (`export_viz_data.py`, `export_module_data`)

Lines 218-249 build one exported block object.  The address fields use the
Python idiom `hex(x) if x else None`, which maps both `None` and `0` to
`None`. -/

/-- Python `hex` on an integer: `hex(64) = "0x40"`, `hex(-5) = "-0x5"`. -/
def pyHex (v : Int) : String :=
  if v < 0 then "-0x" ++ String.mk (Nat.toDigits 16 (-v).toNat)
  else "0x" ++ String.mk (Nat.toDigits 16 v.toNat)

/-- The Python expression `hex(x) if x else None` applied to a nullable
integer column: `None` and `0` are both falsy. -/
def pyOptHex : Option Int → Option String
  | none => none
  | some v => if v ≠ 0 then some (pyHex v) else none

/-- One block object of the visualization export (the fields built at
lines 220-249 of `export_viz_data.py` that carry addresses and
attribution). -/
structure ExportedBlock where
  bb_rva : String
  bb_start_va : Option String
  bb_end_va : Option String
  attr_is_attributed : Bool
  attr_frontier_bb_rva : Option String
  attr_is_shared : Bool
  deriving DecidableEq, Repr

/-- Lines 218-249 of `export_module_data`: build the export object for one
block.  `details` is the row of `basic_blocks` for this RVA if present
(`block_details.get` defaults both addresses to `None`); `attr` is the row
of `bb_attributed_to` for this RVA if present, as
`(frontier_bb_rva, is_shared)` with a `NULL`-able frontier column. -/
def export_block_obj (bbRva : Int) (details : Option (Int × Int))
    (attr : Option (Option Int × Bool)) : ExportedBlock :=
  let startVa : Option Int := details.map (·.1)
  let endVa : Option Int := details.map (·.2)
  { bb_rva := pyHex bbRva
    bb_start_va := pyOptHex startVa
    bb_end_va := pyOptHex endVa
    attr_is_attributed := attr.isSome
    attr_frontier_bb_rva :=
      match attr with
      | some (fr, _) => pyOptHex fr
      | none => none
    attr_is_shared :=
      match attr with
      | some (_, sh) => sh
      | none => false }

/-! ## RVA resolution (`coverage_analyzer.py`, `find_containing_basic_block`)

Lines 200-253.  The `rva_to_bb_cache` consulted first only memoizes results
previously produced by the very same procedure, so the resolver is modelled
as the underlying pure function of the `basic_blocks` table. -/

/-- A row of the master table `basic_blocks`. -/
structure BasicBlock where
  binary_id : Int
  func_id : Int
  bb_rva : Int
  bb_start_va : Int
  bb_end_va : Int
  deriving DecidableEq, Repr

/-- `bb_end_va - bb_start_va`, the `bb_size` computed in the SQL query. -/
def bb_len (b : BasicBlock) : Int := b.bb_end_va - b.bb_start_va

/-- One comparison step of the `ORDER BY bb_rva DESC LIMIT 1` scan. -/
def max_step (acc : Option BasicBlock) (b : BasicBlock) : Option BasicBlock :=
  match acc with
  | none => some b
  | some m => if m.bb_rva < b.bb_rva then some b else some m

/-- `ORDER BY bb_rva DESC LIMIT 1` over a list of candidate rows. -/
def max_by_bb_rva (l : List BasicBlock) : Option BasicBlock :=
  l.foldl max_step none

/-- Lines 200-253 of `coverage_analyzer.py`: resolve an instruction RVA to
its containing basic block.  Exact block starts are matched first;
otherwise the block of the binary with the greatest `bb_rva ≤ rva` is
taken and accepted iff `rva ≤ bb_rva + (bb_end_va - bb_start_va)`. -/
def find_containing_basic_block (bbs : List BasicBlock) (binary_id rva : Int) :
    Option (Int × Int) :=
  match bbs.find? (fun b => decide (b.binary_id = binary_id ∧ b.bb_rva = rva)) with
  | some b => some (b.bb_rva, b.func_id)
  | none =>
    match max_by_bb_rva
        (bbs.filter (fun b => decide (b.binary_id = binary_id ∧ b.bb_rva ≤ rva))) with
    | some b =>
      if rva ≤ b.bb_rva + bb_len b then some (b.bb_rva, b.func_id) else none
    | none => none

/-! ## Deterministic path expansion
(`coverage_analyzer.py`, `expand_deterministic_for_sample`, lines 436-536)

The expansion is per binary: `cfg` below is the list of `cfg_edges` rows of
one binary and `covered` the set of `bb_rva` already in
`cov_S_blocks_joined` for that binary. -/

/-- `edge_kind` of a `cfg_edges` row (`kind if kind else 'unknown'`). -/
inductive EdgeKind where
  | fallthrough
  | branch_unconditional
  | branch_conditional
  | unknown
  deriving DecidableEq, Repr

/-- A row of the master table `cfg_edges` for one binary. -/
structure CfgEdge where
  src_bb_rva : Int
  dst_bb_rva : Int
  edge_kind : EdgeKind
  deriving DecidableEq, Repr

/-- Lines 496-501: a block has a deterministic successor when it has
exactly one outgoing CFG edge and that edge's kind is `fallthrough` or
`branch_unconditional`. -/
def det_successor (cfg : List CfgEdge) (src : Int) : Option Int :=
  match cfg.filter (fun e => decide (e.src_bb_rva = src)) with
  | [e] =>
    if e.edge_kind = EdgeKind.fallthrough ∨ e.edge_kind = EdgeKind.branch_unconditional
    then some e.dst_bb_rva else none
  | _ => none

/-- Lines 485-510: the walk from one covered start block.  The queue only
ever holds the single deterministic successor, so the loop is a linear
walk; it stops when there is no deterministic successor, when the successor
was already visited from this start, or when the successor is already
covered.  `fuel` bounds the iterations; `cfg.length + 1` always suffices
(each step consumes a fresh CFG edge destination). -/
def walk_from (cfg : List CfgEdge) (covered : List Int) :
    Nat → Int → List Int → List Int
  | 0, _, _ => []
  | fuel + 1, current, visited =>
    match det_successor cfg current with
    | none => []
    | some dst =>
      if dst ∈ visited then []
      else if dst ∈ covered then []
      else dst :: walk_from cfg covered fuel dst (dst :: visited)

/-- Lines 483-510: union of the walks from every covered block
(`newly_discovered` in the source; modelled as a deduplicated list). -/
def newly_discovered (cfg : List CfgEdge) (covered : List Int) : List Int :=
  (covered.flatMap (fun s => walk_from cfg covered (cfg.length + 1) s [s])).dedup

/-- Lines 512-531: the rows `(binary_id, func_id, bb_rva)` inserted into
`cov_S_blocks_joined`; a discovered block with no `basic_blocks` row is
silently dropped. -/
def expand_deterministic (cfg : List CfgEdge) (covered : List Int)
    (bbs : List BasicBlock) (binary_id : Int) : List (Int × Int × Int) :=
  (newly_discovered cfg covered).filterMap (fun rva =>
    (bbs.find? (fun b => decide (b.binary_id = binary_id ∧ b.bb_rva = rva))).map
      (fun b => (binary_id, b.func_id, rva)))

/-- Specification-side reachability: `DetReach cfg covered c d` holds when
`d` is reached from `c` by repeatedly following the deterministic CFG edge
out of a block with exactly one successor, never stepping onto an
already-covered block. -/
inductive DetReach (cfg : List CfgEdge) (covered : List Int) : Int → Int → Prop where
  | step {c d : Int} : det_successor cfg c = some d → d ∉ covered →
      DetReach cfg covered c d
  | tail {c d e : Int} : DetReach cfg covered c d → det_successor cfg d = some e →
      e ∉ covered → DetReach cfg covered c e

/-- Number of CFG edge destinations not yet visited; the walk's step count
is bounded by this measure. -/
def remaining_dsts (cfg : List CfgEdge) (visited : List Int) : Nat :=
  (((cfg.map (fun e => e.dst_bb_rva)).dedup).filter (fun d => decide (d ∉ visited))).length

/-! ## Executed graph, frontier, reachability, attribution
(`coverage_analyzer.py`, lines 539-944)

Tables are lists of rows; `bb_rva = -1` is the super-root sentinel. -/

/-- A row of `bb_labels` (flags are the SQL integers 0/1). -/
structure BBLabel where
  binary_id : Int
  func_id : Int
  bb_rva : Int
  in_A : Int
  in_B : Int
  is_new : Int
  deriving DecidableEq, Repr

/-- The `edge_type` strings stored in `graph_B_edges`. -/
inductive GraphEdgeType where
  | super_root
  | super_root_orphan
  | cfg_fallthrough
  | cfg_branch_unconditional
  | call_direct
  | observed_conditional
  | observed_return_continuation
  deriving DecidableEq, Repr

/-- The SQL test `edge_type LIKE 'super_root%'`. -/
def GraphEdgeType.is_super_root_like : GraphEdgeType → Bool
  | super_root => true
  | super_root_orphan => true
  | _ => false

/-- A row of `graph_B_edges`. -/
structure GraphEdge where
  binary_id : Int
  src_bb_rva : Int
  dst_bb_rva : Int
  edge_type : GraphEdgeType
  deriving DecidableEq, Repr

/-- Point lookup in `bb_labels` by its primary key `(binary_id, bb_rva)`. -/
def lookup_label (lbl : List BBLabel) (binary_id bb_rva : Int) : Option BBLabel :=
  lbl.find? (fun l => decide (l.binary_id = binary_id ∧ l.bb_rva = bb_rva))

/-- Test a predicate on the label found at `(binary_id, bb_rva)`; false
when no label exists (an SQL join drops such rows). -/
def label_test (lbl : List BBLabel) (binary_id bb_rva : Int) (p : BBLabel → Bool) : Bool :=
  match lookup_label lbl binary_id bb_rva with
  | some l => p l
  | none => false

/-- Lines 677-690 of `build_executed_graph`: one `super_root_orphan` edge
per new block with no incoming edge of a non-`super_root%` type. -/
def super_root_orphan_edges (g : List GraphEdge) (lbl : List BBLabel) : List GraphEdge :=
  ((lbl.filter (fun l => decide (l.is_new = 1) &&
      !(g.any (fun e => decide (e.binary_id = l.binary_id ∧ e.dst_bb_rva = l.bb_rva) &&
          !e.edge_type.is_super_root_like)))).map
    (fun l => GraphEdge.mk l.binary_id (-1) l.bb_rva GraphEdgeType.super_root_orphan)).dedup

/-- The graph after the orphan-edge pass: all edges inserted so far plus
the orphan edges computed from them. -/
def graph_with_orphans (g : List GraphEdge) (lbl : List BBLabel) : List GraphEdge :=
  g ++ super_root_orphan_edges g lbl

/-- Lines 712-728 of `identify_frontier`: the `frontier_edges` table.
First batch: edges of type `≠ super_root` whose source label has
`in_A = 1` and destination label has `is_new = 1`; second batch: every
`super_root_orphan` edge. -/
def frontier_edge_rows (g : List GraphEdge) (lbl : List BBLabel) : List GraphEdge :=
  g.filter (fun e => decide (e.edge_type ≠ GraphEdgeType.super_root) &&
      label_test lbl e.binary_id e.src_bb_rva (fun l => decide (l.in_A = 1)) &&
      label_test lbl e.binary_id e.dst_bb_rva (fun l => decide (l.is_new = 1)))
  ++ g.filter (fun e => decide (e.edge_type = GraphEdgeType.super_root_orphan))

/-- Lines 730-736: the distinct frontier target candidates
`(binary_id, dst_bb_rva, func_id)`, joining each frontier edge's
destination with its `bb_labels` row. -/
def frontier_candidates (g : List GraphEdge) (lbl : List BBLabel) :
    List (Int × Int × Int) :=
  ((frontier_edge_rows g lbl).filterMap (fun e =>
    (lookup_label lbl e.binary_id e.dst_bb_rva).map
      (fun l => (e.binary_id, e.dst_bb_rva, l.func_id)))).dedup

/-- Classification of a frontier target. -/
inductive FrontierType where
  | strong
  | weak
  deriving DecidableEq, Repr

/-- Lines 760-768 of `identify_frontier`: the `bb_labels` rows of the
sources of the incoming edges of `edge_type NOT LIKE 'super_root%'`
(sources without a label drop out of the SQL join). -/
def incoming_src_labels (g : List GraphEdge) (lbl : List BBLabel)
    (binary_id bb_rva : Int) : List BBLabel :=
  (g.filter (fun e => decide (e.binary_id = binary_id ∧
      e.dst_bb_rva = bb_rva) && !e.edge_type.is_super_root_like)).filterMap
    (fun e => lookup_label lbl binary_id e.src_bb_rva)

/-- Lines 745-786 of `identify_frontier`: a target with an incoming
`super_root_orphan` edge is weak; otherwise it is strong iff some incoming
non-`super_root%` edge has a source labelled `in_A = 1` and none has a
source labelled `is_new = 1`. -/
def classify_frontier_target (g : List GraphEdge) (lbl : List BBLabel)
    (binary_id bb_rva : Int) : FrontierType :=
  if g.any (fun e => decide (e.binary_id = binary_id ∧ e.dst_bb_rva = bb_rva ∧
      e.edge_type = GraphEdgeType.super_root_orphan)) then
    FrontierType.weak
  else
    let incoming := incoming_src_labels g lbl binary_id bb_rva
    let has_a_edge := incoming.any (fun l => decide (l.in_A = 1))
    let has_new_edge := incoming.any (fun l => decide (l.is_new = 1))
    if has_a_edge && !has_new_edge then FrontierType.strong else FrontierType.weak

/-- A row of `frontier_targets`. -/
structure FrontierTarget where
  binary_id : Int
  bb_rva : Int
  func_id : Int
  frontier_type : FrontierType
  deriving DecidableEq, Repr

/-- Lines 730-791: the `frontier_targets` table. -/
def identify_frontier_targets (g : List GraphEdge) (lbl : List BBLabel) :
    List FrontierTarget :=
  (frontier_candidates g lbl).map (fun t =>
    FrontierTarget.mk t.1 t.2.1 t.2.2 (classify_frontier_target g lbl t.1 t.2.1))

/-- Lines 815-821 of `compute_reachability`: adjacency list of `G_B`
restricted to one binary (all edge types). -/
def adjacency (g : List GraphEdge) (binary_id src : Int) : List Int :=
  (g.filter (fun e => decide (e.binary_id = binary_id ∧ e.src_bb_rva = src))).map
    (fun e => e.dst_bb_rva)

/-- Lines 849-852: push each unvisited neighbour, marking it visited. -/
def bfs_enqueue (visited queue : List Int) : List Int → List Int × List Int
  | [] => (visited, queue)
  | n :: ns =>
    if n ∈ visited then bfs_enqueue visited queue ns
    else bfs_enqueue (n :: visited) (queue ++ [n]) ns

/-- Lines 836-852: the BFS from one frontier target, collecting every
popped node whose `is_new = 1` (`reachable_new`).  `fuel` bounds the pops;
since every node is enqueued at most once, `|edges| + 2` always
suffices. -/
def bfs_collect (adj : Int → List Int) (new_blocks : List Int) :
    Nat → List Int → List Int → List Int → List Int
  | 0, _, _, acc => acc
  | _ + 1, [], _, acc => acc
  | fuel + 1, current :: rest, visited, acc =>
    let acc2 := if current ∈ new_blocks then current :: acc else acc
    let vq := bfs_enqueue visited rest (adj current)
    bfs_collect adj new_blocks fuel vq.2 vq.1 acc2

/-- Lines 812-863 of `compute_reachability` for one binary: the pairs
`(frontier_bb_rva, new_bb_rva)` stored in `frontier_reachability`. -/
def compute_reachability (g : List GraphEdge) (lbl : List BBLabel)
    (targets : List FrontierTarget) (binary_id : Int) : List (Int × Int) :=
  let gb := g.filter (fun e => decide (e.binary_id = binary_id))
  let new_blocks := (lbl.filter (fun l => decide (l.binary_id = binary_id ∧
      l.is_new = 1))).map (fun l => l.bb_rva)
  ((targets.filter (fun t => decide (t.binary_id = binary_id))).map
      (fun t => t.bb_rva)).flatMap
    (fun f => (bfs_collect (adjacency g binary_id) new_blocks (gb.length + 2)
        [f] [f] []).map (fun n => (f, n)))

/-- A row of `bb_attributed_to` for one binary (`frontier_bb_rva` is the
`NULL`-able column, `is_shared` the SQL 0/1 flag). -/
structure AttributedBlock where
  new_bb_rva : Int
  frontier_bb_rva : Option Int
  is_shared : Int
  deriving DecidableEq, Repr

/-- Lines 869-941 of `compute_attribution` for one binary: group the
reachability pairs by new block (dict insertion order); a new block with
exactly one frontier gets that frontier and `is_shared = 0`, otherwise a
null frontier and `is_shared = 1`.  The source looks up
`new_blocks[new_bb]` for every grouped block, so a reachability row whose
new block has no `bb_labels is_new = 1` row raises `KeyError` and aborts
the stage (modelled as `none`). -/
def compute_attribution (reach : List (Int × Int)) (new_blocks : List (Int × Int)) :
    Option (List AttributedBlock) :=
  let keys := (reach.map (fun p => p.2)).dedup
  if keys.all (fun n => (new_blocks.find? (fun p => decide (p.1 = n))).isSome) then
    some (keys.map (fun n =>
      let fs := (reach.filter (fun p => decide (p.2 = n))).map (fun p => p.1)
      if fs.length = 1 then AttributedBlock.mk n fs.head? 0
      else AttributedBlock.mk n none 1))
  else none

/-- A frontier target is orphan-entered when it has an incoming
`super_root_orphan` edge in `G_B`. -/
def orphan_entered (g : List GraphEdge) (binary_id bb_rva : Int) : Prop :=
  ∃ e ∈ g, e.binary_id = binary_id ∧ e.dst_bb_rva = bb_rva ∧
    e.edge_type = GraphEdgeType.super_root_orphan

/-- Specification-side condition of C1, following the spec's words (§4.6,
§8.5): every incoming non-super-root edge of the target has a source
*block* (a `bb_labels` row) with `in_A = 1`, and no incoming edge has a
source block with `is_new = 1`.  Following the spec's own usage
("any edge of type ≠ `super_root`"), non-super-root means the type is not
the plain `super_root`; the synthetic super-root is not a block, so an
edge out of it (type `super_root%`, source RVA `-1`) has no source
block. -/
def spec_strong_condition (g : List GraphEdge) (lbl : List BBLabel)
    (binary_id bb_rva : Int) : Prop :=
  (∀ e ∈ g, e.binary_id = binary_id → e.dst_bb_rva = bb_rva →
    e.edge_type ≠ GraphEdgeType.super_root →
    ∃ l, lookup_label lbl e.binary_id e.src_bb_rva = some l ∧ l.in_A = 1) ∧
  (∀ e ∈ g, e.binary_id = binary_id → e.dst_bb_rva = bb_rva →
    ∀ l, lookup_label lbl e.binary_id e.src_bb_rva = some l → l.is_new ≠ 1)

/-! ## Diff labels (`coverage_analyzer.py`, `compute_diff_labels`, lines 404-433) -/

/-- A row of `cov_A_blocks_joined` / `cov_B_blocks_joined`. -/
structure JoinedBlock where
  binary_id : Int
  func_id : Int
  bb_rva : Int
  deriving DecidableEq, Repr

/-- The rows produced by the `INSERT INTO bb_labels ... SELECT` at lines
410-427: the union of the A rows (`in_A = 1`) and B rows (`in_B = 1`)
grouped by `(binary_id, bb_rva)` with `MAX` over the flags and
`is_new = 1` iff `in_B = 1 ∧ in_A = 0`.  SQLite leaves the bare `func_id`
column unspecified within a group; the first row's value is taken. -/
def diff_label_rows (covA covB : List JoinedBlock) : List BBLabel :=
  let union := covA.map (fun r => (r, (1 : Int), (0 : Int))) ++
    covB.map (fun r => (r, (0 : Int), (1 : Int)))
  let keys := (union.map (fun u => (u.1.binary_id, u.1.bb_rva))).dedup
  keys.map (fun k =>
    let grp := union.filter (fun u => decide (u.1.binary_id = k.1 ∧ u.1.bb_rva = k.2))
    let inA : Int := if grp.any (fun u => decide (u.2.1 = 1)) then 1 else 0
    let inB : Int := if grp.any (fun u => decide (u.2.2 = 1)) then 1 else 0
    let fid : Int := (grp.head?).elim 0 (fun u => u.1.func_id)
    BBLabel.mk k.1 fid k.2 inA inB (if inB = 1 ∧ inA = 0 then 1 else 0))

/-- Plain SQL `INSERT` (no `OR IGNORE`) into `bb_labels`: inserting a row
whose primary key `(binary_id, bb_rva)` already exists raises an
integrity error that aborts the run. -/
def insert_plain (tbl : List BBLabel) (rows : List BBLabel) :
    Except String (List BBLabel) :=
  rows.foldlM
    (fun acc r =>
      if acc.any (fun x => decide (x.binary_id = r.binary_id ∧ x.bb_rva = r.bb_rva)) then
        Except.error "UNIQUE constraint failed: bb_labels"
      else Except.ok (acc ++ [r]))
    tbl

/-- Lines 404-433: `compute_diff_labels` writes the derived label rows
into the existing `bb_labels` table with a plain `INSERT`. -/
def compute_diff_labels (covA covB : List JoinedBlock) (bb_labels : List BBLabel) :
    Except String (List BBLabel) :=
  insert_plain bb_labels (diff_label_rows covA covB)

/-! ## Helper lemmas -/

lemma max_step_cases (acc : Option BasicBlock) (b : BasicBlock) :
    ∃ c, max_step acc b = some c ∧ b.bb_rva ≤ c.bb_rva ∧
      (c = b ∨ acc = some c) ∧ ∀ a, acc = some a → a.bb_rva ≤ c.bb_rva := by
  cases acc with
  | none => exact ⟨b, rfl, le_refl _, Or.inl rfl, by simp⟩
  | some a =>
    by_cases hc : a.bb_rva < b.bb_rva
    · refine ⟨b, ?_, le_refl _, Or.inl rfl, ?_⟩
      · simp [max_step, hc]
      · intro x hx
        injection hx with hx
        subst hx
        omega
    · refine ⟨a, ?_, by omega, Or.inr rfl, ?_⟩
      · simp [max_step, hc]
      · intro x hx
        injection hx with hx
        subst hx
        omega

lemma max_by_bb_rva_aux (l : List BasicBlock) :
    ∀ (acc : Option BasicBlock) (m : BasicBlock),
      l.foldl max_step acc = some m →
      (m ∈ l ∨ acc = some m) ∧ (∀ x ∈ l, x.bb_rva ≤ m.bb_rva) ∧
        (∀ a, acc = some a → a.bb_rva ≤ m.bb_rva) := by
  induction l with
  | nil =>
    intro acc m h
    simp only [List.foldl_nil] at h
    refine ⟨Or.inr h, by simp, fun a ha => ?_⟩
    rw [h] at ha
    injection ha with ha
    subst ha
    omega
  | cons b t ih =>
    intro acc m h
    simp only [List.foldl_cons] at h
    obtain ⟨mem, ht, hacc⟩ := ih (max_step acc b) m h
    obtain ⟨c, hc, hbc, hcb, hca⟩ := max_step_cases acc b
    have hcm : c.bb_rva ≤ m.bb_rva := hacc c hc
    refine ⟨?_, ?_, ?_⟩
    · rcases mem with hm | hm
      · exact Or.inl (List.mem_cons_of_mem _ hm)
      · rw [hc] at hm
        injection hm with hm
        subst hm
        rcases hcb with hcb | hcb
        · exact Or.inl (hcb ▸ List.mem_cons_self _ _)
        · exact Or.inr hcb
    · intro x hx
      rcases List.mem_cons.mp hx with hx | hx
      · subst hx; omega
      · exact ht x hx
    · intro a ha
      have := hca a ha
      omega

lemma max_by_bb_rva_aux_none (l : List BasicBlock) :
    ∀ (acc : Option BasicBlock),
      l.foldl max_step acc = none → acc = none ∧ l = [] := by
  induction l with
  | nil => intro acc h; exact ⟨h, rfl⟩
  | cons b t ih =>
    intro acc h
    simp only [List.foldl_cons] at h
    rcases ih _ h with ⟨hstep, _⟩
    obtain ⟨c, hc, -, -, -⟩ := max_step_cases acc b
    rw [hc] at hstep
    cases hstep

/-- The scan of a nonempty candidate list yields a member achieving the
maximal `bb_rva`. -/
lemma max_by_bb_rva_spec {l : List BasicBlock} {m : BasicBlock}
    (h : max_by_bb_rva l = some m) :
    m ∈ l ∧ ∀ x ∈ l, x.bb_rva ≤ m.bb_rva := by
  obtain ⟨mem, hle, -⟩ := max_by_bb_rva_aux l none m h
  rcases mem with hm | hm
  · exact ⟨hm, hle⟩
  · cases hm

lemma max_by_bb_rva_none {l : List BasicBlock}
    (h : max_by_bb_rva l = none) : l = [] :=
  (max_by_bb_rva_aux_none l none h).2

lemma resolver_no_exact_max_eq {bbs : List BasicBlock} {binary_id rva : Int}
    (hPK : ∀ x ∈ bbs, ∀ y ∈ bbs, x.binary_id = y.binary_id → x.bb_rva = y.bb_rva → x = y)
    (hlen : ∀ x ∈ bbs, 0 ≤ bb_len x)
    (hdisj : ∀ x ∈ bbs, ∀ y ∈ bbs, x.binary_id = y.binary_id → x ≠ y →
      x.bb_rva + bb_len x ≤ y.bb_rva ∨ y.bb_rva + bb_len y ≤ x.bb_rva)
    (hnoexact : ∀ y ∈ bbs, y.binary_id = binary_id → y.bb_rva ≠ rva)
    {b : BasicBlock} (hb : b ∈ bbs) (hbid : b.binary_id = binary_id)
    (hble : b.bb_rva ≤ rva) (hbub : rva ≤ b.bb_rva + bb_len b)
    {m : BasicBlock}
    (hm : max_by_bb_rva
      (bbs.filter (fun x => decide (x.binary_id = binary_id ∧ x.bb_rva ≤ rva))) = some m) :
    m = b := by
  obtain ⟨hmemf, hmax⟩ := max_by_bb_rva_spec hm
  rw [List.mem_filter, decide_eq_true_eq] at hmemf
  obtain ⟨hmmem, hmbid, hmle⟩ := hmemf
  have hbm : b.bb_rva ≤ m.bb_rva := by
    have := hmax b (by rw [List.mem_filter, decide_eq_true_eq]; exact ⟨hb, hbid, hble⟩)
    exact this
  by_contra hne
  have hne' : b ≠ m := fun h => hne h.symm
  rcases hdisj b hb m hmmem (by rw [hbid, hmbid]) hne' with hd | hd
  · -- b's interval ends at or before m's start: then rva = m.bb_rva, an exact start
    have : m.bb_rva = rva := by omega
    exact hnoexact m hmmem hmbid this
  · -- m's interval ends at or before b's start: forces equal starts, then PK
    have hm0 := hlen m hmmem
    have : b.bb_rva = m.bb_rva := by omega
    exact hne (hPK m hmmem b hb (by rw [hmbid, hbid]) this.symm)

/-! ## Claim C4 -/

/-- C4 counterexample.  First instance: blocks at RVA 100 (length 5) and
105; `rva = 105` satisfies `100 ≤ 105 ≤ 100 + 5` for the first block, yet
the resolver returns the second block `(105, 8)`, not `(100, 7)`.  Second
instance (overlapping rows): blocks at RVA 100 (length 10) and 105
(length 2); `rva = 109` satisfies the bound for the first block, yet the
resolver returns `none`, so "returns None exactly when no block satisfies
the bound" also fails. -/
theorem c4_resolver_counterexample :
    (BasicBlock.mk 1 7 100 1000 1005 ∈
        [BasicBlock.mk 1 7 100 1000 1005, BasicBlock.mk 1 8 105 1005 1010] ∧
      (100 : Int) ≤ 105 ∧
      (105 : Int) ≤ 100 + bb_len (BasicBlock.mk 1 7 100 1000 1005) ∧
      find_containing_basic_block
        [BasicBlock.mk 1 7 100 1000 1005, BasicBlock.mk 1 8 105 1005 1010] 1 105 =
        some (105, 8) ∧
      ((105 : Int), (8 : Int)) ≠ ((100 : Int), (7 : Int))) ∧
    (BasicBlock.mk 1 7 100 1000 1010 ∈
        [BasicBlock.mk 1 7 100 1000 1010, BasicBlock.mk 1 8 105 1005 1007] ∧
      (100 : Int) ≤ 109 ∧
      (109 : Int) ≤ 100 + bb_len (BasicBlock.mk 1 7 100 1000 1010) ∧
      find_containing_basic_block
        [BasicBlock.mk 1 7 100 1000 1010, BasicBlock.mk 1 8 105 1005 1007] 1 109 =
        none) := by
  constructor <;> refine ⟨by decide, by decide, by decide, ?_⟩
  · exact ⟨by decide, by decide⟩
  · decide

/-- C4 (amended): exact block starts are matched first, otherwise the
block with the greatest `bb_rva ≤ rva` in the binary is taken and accepted
iff `rva ≤ bb_rva + (bb_end_va - bb_start_va)`.  When the binary's blocks
have unique starts, nonnegative lengths and pairwise disjoint half-open
ranges, (i) the resolver returns `b`'s `(bb_rva, func_id)` for any block
`b` satisfying the bound, provided `rva` is not the exact start of a
different block, and (ii) the resolver returns `none` exactly when no
block of the binary satisfies the bound. -/
theorem c4_resolver_amended (bbs : List BasicBlock) (binary_id rva : Int)
    (hPK : ∀ x ∈ bbs, ∀ y ∈ bbs, x.binary_id = y.binary_id → x.bb_rva = y.bb_rva → x = y)
    (hlen : ∀ x ∈ bbs, 0 ≤ bb_len x)
    (hdisj : ∀ x ∈ bbs, ∀ y ∈ bbs, x.binary_id = y.binary_id → x ≠ y →
      x.bb_rva + bb_len x ≤ y.bb_rva ∨ y.bb_rva + bb_len y ≤ x.bb_rva) :
    (∀ b ∈ bbs, b.binary_id = binary_id → b.bb_rva ≤ rva →
      rva ≤ b.bb_rva + bb_len b →
      (b.bb_rva = rva ∨ ∀ y ∈ bbs, y.binary_id = binary_id → y.bb_rva ≠ rva) →
      find_containing_basic_block bbs binary_id rva = some (b.bb_rva, b.func_id)) ∧
    (find_containing_basic_block bbs binary_id rva = none ↔
      ∀ b ∈ bbs, b.binary_id = binary_id →
        ¬(b.bb_rva ≤ rva ∧ rva ≤ b.bb_rva + bb_len b)) := by
  constructor
  · intro b hb hbid hble hbub hcase
    rcases hcase with hbrva | hnoexact
    · -- exact start: find? succeeds and PK pins the row down to b
      have hsome : (bbs.find? (fun x =>
          decide (x.binary_id = binary_id ∧ x.bb_rva = rva))).isSome := by
        rw [List.find?_isSome]
        exact ⟨b, hb, by rw [decide_eq_true_eq]; exact ⟨hbid, hbrva⟩⟩
      obtain ⟨c, hc⟩ := Option.isSome_iff_exists.mp hsome
      have hcmem := List.mem_of_find?_eq_some hc
      have hcp := List.find?_some hc
      rw [decide_eq_true_eq] at hcp
      have hcb : c = b := hPK c hcmem b hb (by rw [hcp.1, hbid])
        (by rw [hcp.2, hbrva])
      subst hcb
      simp only [find_containing_basic_block, hc]
    · -- no exact start anywhere: the greatest candidate is b itself
      have hnone : bbs.find? (fun x =>
          decide (x.binary_id = binary_id ∧ x.bb_rva = rva)) = none := by
        rw [List.find?_eq_none]
        intro y hy
        rw [decide_eq_true_eq]
        rintro ⟨hy1, hy2⟩
        exact hnoexact y hy hy1 hy2
      have hbf : b ∈ bbs.filter (fun x =>
          decide (x.binary_id = binary_id ∧ x.bb_rva ≤ rva)) := by
        rw [List.mem_filter, decide_eq_true_eq]
        exact ⟨hb, hbid, hble⟩
      cases hmax : max_by_bb_rva (bbs.filter (fun x =>
          decide (x.binary_id = binary_id ∧ x.bb_rva ≤ rva))) with
      | none =>
        have := max_by_bb_rva_none hmax
        rw [this] at hbf
        cases hbf
      | some m =>
        have hmb : m = b :=
          resolver_no_exact_max_eq hPK hlen hdisj hnoexact hb hbid hble hbub hmax
        subst hmb
        simp only [find_containing_basic_block, hnone, hmax, if_pos hbub]
  · constructor
    · intro hnone b hb hbid hbound
      obtain ⟨hble, hbub⟩ := hbound
      have hnoexact : ∀ y ∈ bbs, y.binary_id = binary_id → y.bb_rva ≠ rva := by
        intro y hy hy1 hy2
        have hs : (bbs.find? (fun x =>
            decide (x.binary_id = binary_id ∧ x.bb_rva = rva))).isSome := by
          rw [List.find?_isSome]
          exact ⟨y, hy, by rw [decide_eq_true_eq]; exact ⟨hy1, hy2⟩⟩
        obtain ⟨c, hc⟩ := Option.isSome_iff_exists.mp hs
        rw [find_containing_basic_block, hc] at hnone
        cases hnone
      have hfnone : bbs.find? (fun x =>
          decide (x.binary_id = binary_id ∧ x.bb_rva = rva)) = none := by
        rw [List.find?_eq_none]
        intro y hy
        rw [decide_eq_true_eq]
        rintro ⟨hy1, hy2⟩
        exact hnoexact y hy hy1 hy2
      have hbf : b ∈ bbs.filter (fun x =>
          decide (x.binary_id = binary_id ∧ x.bb_rva ≤ rva)) := by
        rw [List.mem_filter, decide_eq_true_eq]
        exact ⟨hb, hbid, hble⟩
      cases hmax : max_by_bb_rva (bbs.filter (fun x =>
          decide (x.binary_id = binary_id ∧ x.bb_rva ≤ rva))) with
      | none =>
        have := max_by_bb_rva_none hmax
        rw [this] at hbf
        cases hbf
      | some m =>
        have hmb : m = b :=
          resolver_no_exact_max_eq hPK hlen hdisj hnoexact hb hbid hble hbub hmax
        subst hmb
        rw [find_containing_basic_block, hfnone] at hnone
        simp only [hmax, if_pos hbub] at hnone
        cases hnone
    · intro hno
      have hfnone : bbs.find? (fun x =>
          decide (x.binary_id = binary_id ∧ x.bb_rva = rva)) = none := by
        rw [List.find?_eq_none]
        intro y hy
        rw [decide_eq_true_eq]
        rintro ⟨hy1, hy2⟩
        have := hlen y hy
        exact hno y hy hy1 ⟨by omega, by omega⟩
      cases hmax : max_by_bb_rva (bbs.filter (fun x =>
          decide (x.binary_id = binary_id ∧ x.bb_rva ≤ rva))) with
      | none => simp only [find_containing_basic_block, hfnone, hmax]
      | some m =>
        obtain ⟨hmemf, -⟩ := max_by_bb_rva_spec hmax
        rw [List.mem_filter, decide_eq_true_eq] at hmemf
        obtain ⟨hmmem, hmbid, hmle⟩ := hmemf
        have hrej : ¬(rva ≤ m.bb_rva + bb_len m) := fun hacc =>
          hno m hmmem hmbid ⟨hmle, hacc⟩
        simp only [find_containing_basic_block, hfnone, hmax, if_neg hrej]

/-- Witness for C4 (amended): a single block `[100, 105)` of binary 1 and
`rva = 103`; all hypotheses hold and the resolver returns `(100, 7)`. -/
theorem c4_resolver_amended_witness :
    ((∀ x ∈ [BasicBlock.mk 1 7 100 1000 1005],
        ∀ y ∈ [BasicBlock.mk 1 7 100 1000 1005],
          x.binary_id = y.binary_id → x.bb_rva = y.bb_rva → x = y) ∧
      (∀ x ∈ [BasicBlock.mk 1 7 100 1000 1005], 0 ≤ bb_len x)) ∧
    find_containing_basic_block [BasicBlock.mk 1 7 100 1000 1005] 1 103 =
      some (100, 7) := by
  refine ⟨⟨by decide, by decide⟩, ?_⟩
  exact (c4_resolver_amended [BasicBlock.mk 1 7 100 1000 1005] 1 103
    (by decide) (by decide) (by decide)).1
    (BasicBlock.mk 1 7 100 1000 1005) (by decide) (by decide) (by decide) (by decide)
    (Or.inr (by decide))

lemma insert_plain_eq_ok (rows : List BBLabel) :
    ∀ (tbl : List BBLabel),
      (∀ r ∈ rows, ∀ x ∈ tbl, ¬(x.binary_id = r.binary_id ∧ x.bb_rva = r.bb_rva)) →
      (rows.map (fun r => (r.binary_id, r.bb_rva))).Nodup →
      insert_plain tbl rows = Except.ok (tbl ++ rows) := by
  induction rows with
  | nil =>
    intro tbl _ _
    rw [insert_plain, List.foldlM_nil, List.append_nil]
    rfl
  | cons r rs ih =>
    intro tbl hdisj hnd
    have hstep : ¬ tbl.any (fun x =>
        decide (x.binary_id = r.binary_id ∧ x.bb_rva = r.bb_rva)) = true := by
      rw [List.any_eq_true]
      rintro ⟨x, hx, hp⟩
      rw [decide_eq_true_eq] at hp
      exact hdisj r (List.mem_cons_self _ _) x hx hp
    rw [List.map_cons, List.nodup_cons] at hnd
    have h1 : insert_plain tbl (r :: rs) = insert_plain (tbl ++ [r]) rs := by
      rw [insert_plain, insert_plain, List.foldlM_cons, if_neg hstep]
      rfl
    rw [h1, ih (tbl ++ [r])
      (by
        intro r2 hr2 x hx
        rcases List.mem_append.mp hx with hx | hx
        · exact hdisj r2 (List.mem_cons_of_mem _ hr2) x hx
        · rw [List.mem_singleton] at hx
          subst hx
          rintro ⟨h1, h2⟩
          exact hnd.1 (by
            rw [List.mem_map]
            exact ⟨r2, hr2, by rw [← h1, ← h2]⟩))
      hnd.2]
    simp [List.append_assoc]

lemma insert_plain_conflict (tbl : List BBLabel) (r : BBLabel) (rows : List BBLabel)
    (hc : ∃ x ∈ tbl, x.binary_id = r.binary_id ∧ x.bb_rva = r.bb_rva) :
    insert_plain tbl (r :: rows) = Except.error "UNIQUE constraint failed: bb_labels" := by
  have hstep : tbl.any (fun x =>
      decide (x.binary_id = r.binary_id ∧ x.bb_rva = r.bb_rva)) = true := by
    rw [List.any_eq_true]
    obtain ⟨x, hx, hp⟩ := hc
    exact ⟨x, hx, by rw [decide_eq_true_eq]; exact hp⟩
  rw [insert_plain, List.foldlM_cons, hstep]
  rfl

lemma diff_label_rows_keys (covA covB : List JoinedBlock) :
    (diff_label_rows covA covB).map (fun r => (r.binary_id, r.bb_rva)) =
      ((covA.map (fun r => ((r, (1 : Int), (0 : Int)) : JoinedBlock × Int × Int)) ++
        covB.map (fun r => (r, (0 : Int), (1 : Int)))).map
          (fun u => (u.1.binary_id, u.1.bb_rva))).dedup := by
  rw [diff_label_rows, List.map_map]
  exact List.map_id _

/-! ## Claim C7 -/

/-- C7: the claim says a second pipeline run on the same inputs succeeds
with identical outputs because every derived table is written with
`INSERT OR IGNORE` / `INSERT OR REPLACE`.  In fact `compute_diff_labels`
(line 411) writes `bb_labels` with a plain `INSERT`, so on any input with
at least one joined coverage row the first run succeeds and the second run
aborts with a UNIQUE-constraint integrity error on the
`(binary_id, bb_rva)` primary key. -/
theorem c7_second_run_fails (covA covB : List JoinedBlock) (h : covA ++ covB ≠ []) :
    compute_diff_labels covA covB [] = Except.ok (diff_label_rows covA covB) ∧
    compute_diff_labels covA covB (diff_label_rows covA covB) =
      Except.error "UNIQUE constraint failed: bb_labels" := by
  have hnd : ((diff_label_rows covA covB).map
      (fun r => (r.binary_id, r.bb_rva))).Nodup := by
    rw [diff_label_rows_keys]
    exact List.nodup_dedup _
  constructor
  · have hok := insert_plain_eq_ok (diff_label_rows covA covB) []
      (by intro r _ x hx; cases hx) hnd
    rw [compute_diff_labels, hok, List.nil_append]
  · cases hrows : diff_label_rows covA covB with
    | nil =>
      exfalso
      rw [diff_label_rows] at hrows
      rw [List.map_eq_nil_iff, List.dedup_eq_nil, List.map_eq_nil_iff,
        List.append_eq_nil, List.map_eq_nil_iff, List.map_eq_nil_iff] at hrows
      rw [hrows.1, hrows.2] at h
      exact h rfl
    | cons r rs =>
      rw [compute_diff_labels, hrows]
      exact insert_plain_conflict (r :: rs) r rs
        ⟨r, List.mem_cons_self _ _, rfl, rfl⟩

/-- Witness for C7: the failure is exhibited on the concrete coverage join
of a single A-covered block. -/
theorem c7_second_run_fails_witness :
    ([JoinedBlock.mk 1 7 100] ++ ([] : List JoinedBlock) ≠ [] ∧
      compute_diff_labels [JoinedBlock.mk 1 7 100] [] [] =
        Except.ok (diff_label_rows [JoinedBlock.mk 1 7 100] [])) ∧
    compute_diff_labels [JoinedBlock.mk 1 7 100] []
        (diff_label_rows [JoinedBlock.mk 1 7 100] []) =
      Except.error "UNIQUE constraint failed: bb_labels" :=
  ⟨⟨by decide, (c7_second_run_fails [JoinedBlock.mk 1 7 100] [] (by decide)).1⟩,
    (c7_second_run_fails [JoinedBlock.mk 1 7 100] [] (by decide)).2⟩

lemma filter_map_by_key (F : Int → AttributedBlock)
    (hF : ∀ k, (F k).new_bb_rva = k) (n : Int) :
    ∀ (ks : List Int), ks.Nodup →
      (ks.map F).filter (fun r => decide (r.new_bb_rva = n)) =
        if n ∈ ks then [F n] else [] := by
  intro ks
  induction ks with
  | nil => intro _; simp
  | cons k t ih =>
    intro hnd
    rw [List.nodup_cons] at hnd
    rw [List.map_cons, List.filter_cons]
    by_cases hk : k = n
    · subst hk
      rw [if_pos (by rw [decide_eq_true_eq]; exact hF k), ih hnd.2,
        if_neg hnd.1, if_pos (List.mem_cons_self _ _)]
    · rw [if_neg (by rw [decide_eq_true_eq, hF]; exact hk), ih hnd.2]
      by_cases hn : n ∈ t
      · rw [if_pos hn, if_pos (List.mem_cons_of_mem _ hn)]
      · rw [if_neg hn, if_neg (by
          rw [List.mem_cons]
          rintro (h | h)
          · exact hk h.symm
          · exact hn h)]

/-! ## Claim C2 -/

/-- C2: with the reachability rows deduplicated by their primary key, and
every reachability row's new block present among the `is_new = 1` labels,
attribution stores for each new block `n` with frontier set `F(n)` (read
off `frontier_reachability`): exactly one row `(n, f, is_shared = 0)` when
`F(n) = ⟨f⟩`, exactly one row `(n, null, is_shared = 1)` when
`|F(n)| ≥ 2`, and no row when `F(n)` is empty. -/
theorem c2_attribution_trichotomy (reach : List (Int × Int))
    (new_blocks : List (Int × Int)) (hnd : reach.Nodup)
    (hkeys : ∀ p ∈ reach, ∃ q ∈ new_blocks, q.1 = p.2) :
    ∃ rows, compute_attribution reach new_blocks = some rows ∧
      ∀ n : Int,
        ((reach.filter (fun p => decide (p.2 = n))).map (fun p => p.1)).Nodup ∧
        ((reach.filter (fun p => decide (p.2 = n))).map (fun p => p.1) = [] →
          rows.filter (fun r => decide (r.new_bb_rva = n)) = []) ∧
        (∀ f, (reach.filter (fun p => decide (p.2 = n))).map (fun p => p.1) = [f] →
          rows.filter (fun r => decide (r.new_bb_rva = n)) =
            [AttributedBlock.mk n (some f) 0]) ∧
        (2 ≤ ((reach.filter (fun p => decide (p.2 = n))).map (fun p => p.1)).length →
          rows.filter (fun r => decide (r.new_bb_rva = n)) =
            [AttributedBlock.mk n none 1]) := by
  have hguard : ((reach.map (fun p => p.2)).dedup).all
      (fun n => (new_blocks.find? (fun p => decide (p.1 = n))).isSome) = true := by
    rw [List.all_eq_true]
    intro n hn
    rw [List.mem_dedup, List.mem_map] at hn
    obtain ⟨p, hp, hpn⟩ := hn
    obtain ⟨q, hq, hqn⟩ := hkeys p hp
    rw [List.find?_isSome]
    exact ⟨q, hq, by rw [decide_eq_true_eq, hqn, hpn]⟩
  refine ⟨_, by rw [compute_attribution, if_pos hguard], ?_⟩
  intro n
  set fs := (reach.filter (fun p => decide (p.2 = n))).map (fun p => p.1) with hfs
  have hrowkey : ∀ k, ((fun k =>
      let fk := (reach.filter (fun p => decide (p.2 = k))).map (fun p => p.1)
      if fk.length = 1 then AttributedBlock.mk k fk.head? 0
      else AttributedBlock.mk k none 1) k).new_bb_rva = k := by
    intro k
    simp only []
    split <;> rfl
  have hfilter := filter_map_by_key _ hrowkey n
    ((reach.map (fun p => p.2)).dedup) (List.nodup_dedup _)
  have hfsnd : fs.Nodup := by
    refine List.Nodup.map_on ?_ (List.Nodup.filter _ hnd)
    intro x hx y hy hxy
    rw [List.mem_filter, decide_eq_true_eq] at hx hy
    exact Prod.ext hxy (hx.2.trans hy.2.symm)
  refine ⟨hfsnd, ?_, ?_, ?_⟩
  · intro hempty
    have hnotmem : n ∉ (reach.map (fun p => p.2)).dedup := by
      rw [List.mem_dedup, List.mem_map]
      rintro ⟨p, hp, hpn⟩
      have : p.1 ∈ fs := by
        rw [hfs, List.mem_map]
        exact ⟨p, by rw [List.mem_filter, decide_eq_true_eq]; exact ⟨hp, hpn⟩, rfl⟩
      rw [hempty] at this
      cases this
    rw [hfilter, if_neg hnotmem]
  · intro f hone
    have hmem : n ∈ (reach.map (fun p => p.2)).dedup := by
      rw [List.mem_dedup, List.mem_map]
      have : f ∈ fs := by rw [hone]; exact List.mem_singleton.mpr rfl
      rw [hfs, List.mem_map] at this
      obtain ⟨p, hp, -⟩ := this
      rw [List.mem_filter, decide_eq_true_eq] at hp
      exact ⟨p, hp.1, hp.2⟩
    rw [hfilter, if_pos hmem]
    have hlen : fs.length = 1 := by rw [hone]; rfl
    simp only [← hfs, hlen, if_pos]
    rw [hone]
    rfl
  · intro hge
    have hmem : n ∈ (reach.map (fun p => p.2)).dedup := by
      rw [List.mem_dedup, List.mem_map]
      have hne : fs ≠ [] := by
        intro hcon
        rw [hcon] at hge
        simp at hge
      obtain ⟨f, hf⟩ := List.exists_mem_of_ne_nil fs hne
      rw [hfs, List.mem_map] at hf
      obtain ⟨p, hp, -⟩ := hf
      rw [List.mem_filter, decide_eq_true_eq] at hp
      exact ⟨p, hp.1, hp.2⟩
    rw [hfilter, if_pos hmem]
    have hlen : ¬ fs.length = 1 := by omega
    simp only [← hfs, if_neg hlen]

/-- Witness for C2: reachability rows `{(10,300), (10,500), (20,500)}` over
new blocks `{300, 500}`; block 300 is uniquely attributed to frontier 10
and block 500 is shared. -/
theorem c2_attribution_trichotomy_witness :
    (([((10 : Int), (300 : Int)), (10, 500), (20, 500)] :
        List (Int × Int)).Nodup ∧
      (∀ p ∈ ([((10 : Int), (300 : Int)), (10, 500), (20, 500)] :
          List (Int × Int)),
        ∃ q ∈ ([((300 : Int), (5 : Int)), (500, 6)] : List (Int × Int)),
          q.1 = p.2)) ∧
    (∃ rows, compute_attribution [(10, 300), (10, 500), (20, 500)]
        [(300, 5), (500, 6)] = some rows ∧
      ∀ n : Int,
        (([((10 : Int), (300 : Int)), (10, 500), (20, 500)].filter
            (fun p => decide (p.2 = n))).map (fun p => p.1)).Nodup ∧
        (([((10 : Int), (300 : Int)), (10, 500), (20, 500)].filter
            (fun p => decide (p.2 = n))).map (fun p => p.1) = [] →
          rows.filter (fun r => decide (r.new_bb_rva = n)) = []) ∧
        (∀ f, ([((10 : Int), (300 : Int)), (10, 500), (20, 500)].filter
            (fun p => decide (p.2 = n))).map (fun p => p.1) = [f] →
          rows.filter (fun r => decide (r.new_bb_rva = n)) =
            [AttributedBlock.mk n (some f) 0]) ∧
        (2 ≤ (([((10 : Int), (300 : Int)), (10, 500), (20, 500)].filter
            (fun p => decide (p.2 = n))).map (fun p => p.1)).length →
          rows.filter (fun r => decide (r.new_bb_rva = n)) =
            [AttributedBlock.mk n none 1])) :=
  ⟨⟨by decide, by decide⟩,
    c2_attribution_trichotomy [(10, 300), (10, 500), (20, 500)]
      [(300, 5), (500, 6)] (by decide) (by decide)⟩

lemma det_successor_mem {cfg : List CfgEdge} {c d : Int}
    (h : det_successor cfg c = some d) : ∃ e ∈ cfg, e.dst_bb_rva = d := by
  rw [det_successor] at h
  cases hf : cfg.filter (fun e => decide (e.src_bb_rva = c)) with
  | nil => rw [hf] at h; cases h
  | cons e t =>
    cases t with
    | nil =>
      rw [hf] at h
      simp only [] at h
      split at h
      · injection h with h
        exact ⟨e, List.mem_of_mem_filter (by rw [hf]; exact List.mem_singleton.mpr rfl), h⟩
      · cases h
    | cons e2 t2 => rw [hf] at h; cases h

lemma filter_length_mono (l : List Int) (p q : Int → Bool)
    (h : ∀ x, q x = true → p x = true) :
    (l.filter q).length ≤ (l.filter p).length := by
  induction l with
  | nil => simp
  | cons a t ih =>
    rw [List.filter_cons, List.filter_cons]
    by_cases hq : q a = true
    · rw [if_pos hq, if_pos (h a hq)]
      simpa using ih
    · rw [if_neg hq]
      split
      · exact le_trans ih (by simp)
      · exact ih

lemma filter_not_mem_lt (vis : List Int) (d : Int) (hv : d ∉ vis) :
    ∀ (l : List Int), d ∈ l →
      (l.filter (fun x => decide (x ∉ d :: vis))).length <
        (l.filter (fun x => decide (x ∉ vis))).length := by
  intro l
  induction l with
  | nil => intro h; cases h
  | cons a t ih =>
    intro hd
    rw [List.filter_cons, List.filter_cons]
    by_cases ha : a = d
    · subst ha
      rw [if_neg (by simp), if_pos (by rw [decide_eq_true_eq]; exact hv)]
      have : (t.filter (fun x => decide (x ∉ a :: vis))).length ≤
          (t.filter (fun x => decide (x ∉ vis))).length := by
        refine filter_length_mono t _ _ ?_
        intro x hx
        rw [decide_eq_true_eq] at hx ⊢
        intro hc
        exact hx (List.mem_cons_of_mem _ hc)
      rw [List.length_cons]
      omega
    · have hdt : d ∈ t := by
        rcases List.mem_cons.mp hd with h | h
        · exact absurd h.symm ha
        · exact h
      have hiff : (decide (a ∉ d :: vis)) = (decide (a ∉ vis)) := by
        by_cases hav : a ∈ vis
        · simp [hav]
        · simp [hav, ha]
      rw [hiff]
      have := ih hdt
      by_cases hav : decide (a ∉ vis) = true
      · rw [if_pos hav, if_pos hav]
        simpa using this
      · rw [if_neg hav, if_neg hav]
        exact this

lemma remaining_dsts_lt {cfg : List CfgEdge} {vis : List Int} {d : Int}
    (hd : d ∈ (cfg.map (fun e => e.dst_bb_rva)).dedup) (hv : d ∉ vis) :
    remaining_dsts cfg (d :: vis) < remaining_dsts cfg vis :=
  filter_not_mem_lt vis d hv _ hd

lemma remaining_dsts_pos {cfg : List CfgEdge} {vis : List Int} {c d : Int}
    (h : det_successor cfg c = some d) (hv : d ∉ vis) :
    1 ≤ remaining_dsts cfg vis := by
  obtain ⟨e, he, hed⟩ := det_successor_mem h
  have hdD : d ∈ (cfg.map (fun x => x.dst_bb_rva)).dedup := by
    rw [List.mem_dedup, List.mem_map]
    exact ⟨e, he, hed⟩
  have : d ∈ ((cfg.map (fun x => x.dst_bb_rva)).dedup).filter
      (fun x => decide (x ∉ vis)) := by
    rw [List.mem_filter, decide_eq_true_eq]
    exact ⟨hdD, hv⟩
  rw [remaining_dsts]
  exact List.length_pos.mpr (fun hc => by rw [hc] at this; cases this)

lemma remaining_dsts_le (cfg : List CfgEdge) (vis : List Int) :
    remaining_dsts cfg vis ≤ cfg.length := by
  rw [remaining_dsts]
  calc (((cfg.map (fun e => e.dst_bb_rva)).dedup).filter
      (fun d => decide (d ∉ vis))).length
      ≤ ((cfg.map (fun e => e.dst_bb_rva)).dedup).length :=
        List.length_filter_le _ _
    _ ≤ (cfg.map (fun e => e.dst_bb_rva)).length :=
        (List.dedup_sublist _).length_le
    _ = cfg.length := List.length_map _ _

lemma walk_from_eq_none {cfg : List CfgEdge} {covered : List Int}
    {f : Nat} {current : Int} {visited : List Int}
    (h : det_successor cfg current = none) :
    walk_from cfg covered (f + 1) current visited = [] := by
  rw [walk_from, h]

lemma walk_from_eq_some {cfg : List CfgEdge} {covered : List Int}
    {f : Nat} {current d : Int} {visited : List Int}
    (h : det_successor cfg current = some d) :
    walk_from cfg covered (f + 1) current visited =
      if d ∈ visited then []
      else if d ∈ covered then []
      else d :: walk_from cfg covered f d (d :: visited) := by
  rw [walk_from, h]

lemma walk_from_fuel_eq (cfg : List CfgEdge) (covered : List Int) :
    ∀ (fuel : Nat) (current : Int) (visited : List Int),
      remaining_dsts cfg visited ≤ fuel →
      walk_from cfg covered (fuel + 1) current visited =
        walk_from cfg covered fuel current visited := by
  intro fuel
  induction fuel with
  | zero =>
    intro current visited hrem
    have h0 : ∀ (cur : Int) (vis : List Int), walk_from cfg covered 0 cur vis = [] :=
      fun _ _ => rfl
    cases hsucc : det_successor cfg current with
    | none => rw [walk_from_eq_none hsucc, h0]
    | some d =>
      rw [walk_from_eq_some hsucc, h0, h0]
      by_cases hvis : d ∈ visited
      · rw [if_pos hvis]
      · rw [if_neg hvis]
        by_cases hcov : d ∈ covered
        · rw [if_pos hcov]
        · exact absurd (remaining_dsts_pos hsucc hvis) (by omega)
  | succ f ih =>
    intro current visited hrem
    cases hsucc : det_successor cfg current with
    | none => rw [walk_from_eq_none hsucc, walk_from_eq_none hsucc]
    | some d =>
      rw [walk_from_eq_some hsucc, walk_from_eq_some hsucc]
      by_cases hvis : d ∈ visited
      · rw [if_pos hvis, if_pos hvis]
      · rw [if_neg hvis, if_neg hvis]
        by_cases hcov : d ∈ covered
        · rw [if_pos hcov, if_pos hcov]
        · rw [if_neg hcov, if_neg hcov]
          have hlt : remaining_dsts cfg (d :: visited) < remaining_dsts cfg visited := by
            obtain ⟨e, he, hed⟩ := det_successor_mem hsucc
            exact remaining_dsts_lt
              (by rw [List.mem_dedup, List.mem_map]; exact ⟨e, he, hed⟩) hvis
          rw [ih d (d :: visited) (by omega)]

lemma walk_from_stable (cfg : List CfgEdge) (covered : List Int) (c : Int) :
    ∀ (k : Nat),
      walk_from cfg covered (cfg.length + 1 + k) c [c] =
        walk_from cfg covered (cfg.length + 1) c [c] := by
  intro k
  induction k with
  | zero => rfl
  | succ j ih =>
    have : cfg.length + 1 + (j + 1) = (cfg.length + 1 + j) + 1 := by omega
    rw [this, walk_from_fuel_eq cfg covered (cfg.length + 1 + j) c [c]
      (le_trans (remaining_dsts_le cfg [c]) (by omega)), ih]

lemma walk_from_nodup (cfg : List CfgEdge) (covered : List Int) :
    ∀ (fuel : Nat) (current : Int) (visited : List Int),
      (walk_from cfg covered fuel current visited).Nodup ∧
        ∀ x ∈ walk_from cfg covered fuel current visited, x ∉ visited := by
  intro fuel
  induction fuel with
  | zero => intro current visited; rw [walk_from]; exact ⟨List.nodup_nil, by simp⟩
  | succ f ih =>
    intro current visited
    cases hsucc : det_successor cfg current with
    | none => rw [walk_from_eq_none hsucc]; exact ⟨List.nodup_nil, by simp⟩
    | some d =>
      rw [walk_from_eq_some hsucc]
      by_cases hvis : d ∈ visited
      · rw [if_pos hvis]; exact ⟨List.nodup_nil, by simp⟩
      · rw [if_neg hvis]
        by_cases hcov : d ∈ covered
        · rw [if_pos hcov]; exact ⟨List.nodup_nil, by simp⟩
        · rw [if_neg hcov]
          obtain ⟨hnd, hdisj⟩ := ih d (d :: visited)
          constructor
          · rw [List.nodup_cons]
            exact ⟨fun hc => hdisj d hc (List.mem_cons_self _ _), hnd⟩
          · intro x hx
            rcases List.mem_cons.mp hx with hx | hx
            · subst hx; exact hvis
            · exact fun hc => hdisj x hx (List.mem_cons_of_mem _ hc)

lemma walk_from_not_covered (cfg : List CfgEdge) (covered : List Int) :
    ∀ (fuel : Nat) (current : Int) (visited : List Int),
      ∀ x ∈ walk_from cfg covered fuel current visited, x ∉ covered := by
  intro fuel
  induction fuel with
  | zero => intro current visited x hx; rw [walk_from] at hx; cases hx
  | succ f ih =>
    intro current visited x hx
    cases hsucc : det_successor cfg current with
    | none => rw [walk_from_eq_none hsucc] at hx; cases hx
    | some d =>
      rw [walk_from_eq_some hsucc] at hx
      by_cases hvis : d ∈ visited
      · rw [if_pos hvis] at hx; cases hx
      · rw [if_neg hvis] at hx
        by_cases hcov : d ∈ covered
        · rw [if_pos hcov] at hx; cases hx
        · rw [if_neg hcov] at hx
          rcases List.mem_cons.mp hx with hx | hx
          · subst hx; exact hcov
          · exact ih d (d :: visited) x hx

lemma walk_from_sound (cfg : List CfgEdge) (covered : List Int) (c : Int) :
    ∀ (fuel : Nat) (current : Int) (visited : List Int),
      (current = c ∨ DetReach cfg covered c current) →
      ∀ x ∈ walk_from cfg covered fuel current visited,
        DetReach cfg covered c x := by
  intro fuel
  induction fuel with
  | zero => intro current visited _ x hx; rw [walk_from] at hx; cases hx
  | succ f ih =>
    intro current visited hcur x hx
    cases hsucc : det_successor cfg current with
    | none => rw [walk_from_eq_none hsucc] at hx; cases hx
    | some d =>
      rw [walk_from_eq_some hsucc] at hx
      by_cases hvis : d ∈ visited
      · rw [if_pos hvis] at hx; cases hx
      · rw [if_neg hvis] at hx
        by_cases hcov : d ∈ covered
        · rw [if_pos hcov] at hx; cases hx
        · rw [if_neg hcov] at hx
          have hd : DetReach cfg covered c d := by
            rcases hcur with hc | hc
            · subst hc; exact DetReach.step hsucc hcov
            · exact DetReach.tail hc hsucc hcov
          rcases List.mem_cons.mp hx with hx | hx
          · subst hx; exact hd
          · exact ih d (d :: visited) (Or.inr hd) x hx

lemma walk_from_head (cfg : List CfgEdge) (covered : List Int)
    (fuel : Nat) (hfuel : 1 ≤ fuel) {current y : Int} (visited : List Int)
    (hsucc : det_successor cfg current = some y) (hcov : y ∉ covered) :
    y ∈ walk_from cfg covered fuel current visited ∨ y ∈ visited := by
  obtain ⟨f, rfl⟩ : ∃ f, fuel = f + 1 := ⟨fuel - 1, by omega⟩
  rw [walk_from_eq_some hsucc]
  by_cases hvis : y ∈ visited
  · exact Or.inr hvis
  · rw [if_neg hvis, if_neg hcov]
    exact Or.inl (List.mem_cons_self _ _)

lemma walk_from_closed (cfg : List CfgEdge) (covered : List Int) :
    ∀ (fuel : Nat) (current : Int) (visited : List Int),
      remaining_dsts cfg visited + 1 ≤ fuel →
      ∀ x ∈ walk_from cfg covered fuel current visited,
        ∀ {y : Int}, det_successor cfg x = some y → y ∉ covered →
          y ∈ walk_from cfg covered fuel current visited ∨ y ∈ visited := by
  intro fuel
  induction fuel with
  | zero => intro current visited _ x hx; rw [walk_from] at hx; cases hx
  | succ f ih =>
    intro current visited hrem x hx y hxy hycov
    cases hsucc : det_successor cfg current with
    | none => rw [walk_from_eq_none hsucc] at hx; cases hx
    | some d =>
      rw [walk_from_eq_some hsucc] at hx ⊢
      by_cases hvis : d ∈ visited
      · rw [if_pos hvis] at hx; cases hx
      · rw [if_neg hvis] at hx ⊢
        by_cases hcov : d ∈ covered
        · rw [if_pos hcov] at hx; cases hx
        · rw [if_neg hcov] at hx ⊢
          have hlt : remaining_dsts cfg (d :: visited) < remaining_dsts cfg visited := by
            obtain ⟨e, he, hed⟩ := det_successor_mem hsucc
            exact remaining_dsts_lt
              (by rw [List.mem_dedup, List.mem_map]; exact ⟨e, he, hed⟩) hvis
          rcases List.mem_cons.mp hx with hx | hx
          · -- x is the freshly discovered d; look one step into the tail
            subst hx
            have hf1 : 1 ≤ f := by
              have := remaining_dsts_pos hsucc hvis
              omega
            rcases walk_from_head cfg covered f hf1 (x :: visited) hxy hycov with hy | hy
            · exact Or.inl (List.mem_cons_of_mem _ hy)
            · rcases List.mem_cons.mp hy with hy | hy
              · exact Or.inl (hy ▸ List.mem_cons_self _ _)
              · exact Or.inr hy
          · rcases ih d (d :: visited) (by omega) x hx hxy hycov with hy | hy
            · exact Or.inl (List.mem_cons_of_mem _ hy)
            · rcases List.mem_cons.mp hy with hy | hy
              · exact Or.inl (hy ▸ List.mem_cons_self _ _)
              · exact Or.inr hy

lemma walk_from_complete (cfg : List CfgEdge) (covered : List Int)
    {c d : Int} (hc : c ∈ covered) (hreach : DetReach cfg covered c d) :
    d ∈ walk_from cfg covered (cfg.length + 1) c [c] := by
  induction hreach with
  | step hsucc hcov =>
    rcases walk_from_head cfg covered (cfg.length + 1) (by omega) [c] hsucc hcov with h | h
    · exact h
    · rw [List.mem_singleton] at h
      subst h
      exact absurd hc hcov
  | tail hpre hsucc hcov ih =>
    rcases walk_from_closed cfg covered (cfg.length + 1) c [c]
        (by have := remaining_dsts_le cfg [c]; omega) _ ih hsucc hcov with h | h
    · exact h
    · rw [List.mem_singleton] at h
      subst h
      exact absurd hc hcov

lemma det_reach_dst {cfg : List CfgEdge} {covered : List Int} {c d : Int}
    (h : DetReach cfg covered c d) : ∃ e ∈ cfg, e.dst_bb_rva = d := by
  cases h with
  | step hsucc _ => exact det_successor_mem hsucc
  | tail _ hsucc _ => exact det_successor_mem hsucc

/-! ## Claims C5 and C6 -/

/-- C5: deterministic expansion adds to `cov_S_blocks_joined` exactly the
not-yet-covered blocks reachable from some covered block by repeatedly
following the single deterministic CFG edge (`fallthrough` or
`branch_unconditional` out of a block with exactly one successor), the
walk stopping at covered blocks, at blocks without exactly one
deterministic successor, and at already-visited blocks.  The hypothesis
states that every CFG edge destination is a block of the binary in
`basic_blocks` (a discovered RVA with no `basic_blocks` row would be
dropped by the `func_id` lookup). -/
theorem c5_expansion_characterization (cfg : List CfgEdge) (covered : List Int)
    (bbs : List BasicBlock) (binary_id : Int)
    (hdst : ∀ e ∈ cfg, ∃ b ∈ bbs,
      b.binary_id = binary_id ∧ b.bb_rva = e.dst_bb_rva) :
    ∀ d : Int,
      (∃ fid, (binary_id, fid, d) ∈ expand_deterministic cfg covered bbs binary_id) ↔
        (d ∉ covered ∧ ∃ c ∈ covered, DetReach cfg covered c d) := by
  intro d
  constructor
  · rintro ⟨fid, hmem⟩
    rw [expand_deterministic, List.mem_filterMap] at hmem
    obtain ⟨rva, hrva, hmap⟩ := hmem
    cases hfind : bbs.find? (fun b =>
        decide (b.binary_id = binary_id ∧ b.bb_rva = rva)) with
    | none => rw [hfind] at hmap; cases hmap
    | some b =>
      rw [hfind] at hmap
      injection hmap with hmap
      have hrd : rva = d := congrArg (fun t => t.2.2) hmap
      subst hrd
      rw [newly_discovered, List.mem_dedup, List.mem_flatMap] at hrva
      obtain ⟨c, hcmem, hcw⟩ := hrva
      exact ⟨walk_from_not_covered cfg covered _ c [c] rva hcw,
        c, hcmem, walk_from_sound cfg covered c _ c [c] (Or.inl rfl) rva hcw⟩
  · rintro ⟨hdcov, c, hcmem, hreach⟩
    have hwalk := walk_from_complete cfg covered hcmem hreach
    have hnd : d ∈ newly_discovered cfg covered := by
      rw [newly_discovered, List.mem_dedup, List.mem_flatMap]
      exact ⟨c, hcmem, hwalk⟩
    obtain ⟨e, he, hed⟩ := det_reach_dst hreach
    obtain ⟨b, hb, hbid, hbrva⟩ := hdst e he
    have hfind : (bbs.find? (fun b =>
        decide (b.binary_id = binary_id ∧ b.bb_rva = d))).isSome := by
      rw [List.find?_isSome]
      exact ⟨b, hb, by rw [decide_eq_true_eq]; exact ⟨hbid, by rw [hbrva, hed]⟩⟩
    obtain ⟨b2, hb2⟩ := Option.isSome_iff_exists.mp hfind
    refine ⟨b2.func_id, ?_⟩
    rw [expand_deterministic, List.mem_filterMap]
    exact ⟨d, hnd, by rw [hb2]; rfl⟩

/-- Witness for C5, instantiating the spec's Scenario 6: CFG
`10→20` (fallthrough, single successor), `20→30` (unconditional, single
successor), `30→40` and `30→50` (conditional); coverage records
`{10, 40}`.  The expansion adds exactly `{20, 30}`. -/
theorem c5_expansion_characterization_witness :
    ((∀ e ∈ [CfgEdge.mk 10 20 EdgeKind.fallthrough,
        CfgEdge.mk 20 30 EdgeKind.branch_unconditional,
        CfgEdge.mk 30 40 EdgeKind.branch_conditional,
        CfgEdge.mk 30 50 EdgeKind.branch_conditional],
      ∃ b ∈ [BasicBlock.mk 1 7 10 10 12, BasicBlock.mk 1 7 20 20 22,
          BasicBlock.mk 1 7 30 30 32, BasicBlock.mk 1 7 40 40 42,
          BasicBlock.mk 1 7 50 50 52],
        b.binary_id = 1 ∧ b.bb_rva = e.dst_bb_rva) ∧
      newly_discovered [CfgEdge.mk 10 20 EdgeKind.fallthrough,
        CfgEdge.mk 20 30 EdgeKind.branch_unconditional,
        CfgEdge.mk 30 40 EdgeKind.branch_conditional,
        CfgEdge.mk 30 50 EdgeKind.branch_conditional] [10, 40] = [20, 30]) ∧
    ∀ d : Int,
      (∃ fid, ((1 : Int), fid, d) ∈ expand_deterministic
        [CfgEdge.mk 10 20 EdgeKind.fallthrough,
          CfgEdge.mk 20 30 EdgeKind.branch_unconditional,
          CfgEdge.mk 30 40 EdgeKind.branch_conditional,
          CfgEdge.mk 30 50 EdgeKind.branch_conditional] [10, 40]
        [BasicBlock.mk 1 7 10 10 12, BasicBlock.mk 1 7 20 20 22,
          BasicBlock.mk 1 7 30 30 32, BasicBlock.mk 1 7 40 40 42,
          BasicBlock.mk 1 7 50 50 52] 1) ↔
      (d ∉ ([10, 40] : List Int) ∧ ∃ c ∈ ([10, 40] : List Int),
        DetReach [CfgEdge.mk 10 20 EdgeKind.fallthrough,
          CfgEdge.mk 20 30 EdgeKind.branch_unconditional,
          CfgEdge.mk 30 40 EdgeKind.branch_conditional,
          CfgEdge.mk 30 50 EdgeKind.branch_conditional] [10, 40] c d) :=
  ⟨⟨by decide, by decide⟩,
    c5_expansion_characterization _ _ _ 1 (by decide)⟩

/-- C6: the deterministic-expansion walk terminates on every finite CFG,
including cyclic ones: with the per-start visited set, `|cfg| + 1` loop
iterations always suffice (more fuel changes nothing), and the walk from
any start block discovers (hence enqueues) each block at most once. -/
theorem c6_walk_terminates (cfg : List CfgEdge) (covered : List Int) (c : Int)
    (fuel : Nat) (hfuel : cfg.length + 1 ≤ fuel) :
    walk_from cfg covered fuel c [c] =
      walk_from cfg covered (cfg.length + 1) c [c] ∧
    (walk_from cfg covered fuel c [c]).Nodup := by
  obtain ⟨k, hk⟩ := Nat.le.dest hfuel
  constructor
  · rw [← hk]
    exact walk_from_stable cfg covered c k
  · exact (walk_from_nodup cfg covered fuel c [c]).1

/-- Witness for C6: a two-block cycle `10 → 20 → 10` of unconditional
branches with only block 10 covered; the walk stops after discovering 20
and yields no duplicates. -/
theorem c6_walk_terminates_witness :
    ((3 : Nat) + 1 ≤ 9) ∧
    (walk_from [CfgEdge.mk 10 20 EdgeKind.branch_unconditional,
        CfgEdge.mk 20 10 EdgeKind.branch_unconditional,
        CfgEdge.mk 5 10 EdgeKind.fallthrough] [10] 9 10 [10] =
      walk_from [CfgEdge.mk 10 20 EdgeKind.branch_unconditional,
        CfgEdge.mk 20 10 EdgeKind.branch_unconditional,
        CfgEdge.mk 5 10 EdgeKind.fallthrough] [10]
        ([CfgEdge.mk 10 20 EdgeKind.branch_unconditional,
          CfgEdge.mk 20 10 EdgeKind.branch_unconditional,
          CfgEdge.mk 5 10 EdgeKind.fallthrough].length + 1) 10 [10] ∧
      (walk_from [CfgEdge.mk 10 20 EdgeKind.branch_unconditional,
        CfgEdge.mk 20 10 EdgeKind.branch_unconditional,
        CfgEdge.mk 5 10 EdgeKind.fallthrough] [10] 9 10 [10]).Nodup) :=
  ⟨by norm_num,
    c6_walk_terminates [CfgEdge.mk 10 20 EdgeKind.branch_unconditional,
      CfgEdge.mk 20 10 EdgeKind.branch_unconditional,
      CfgEdge.mk 5 10 EdgeKind.fallthrough] [10] 10 9 (by norm_num)⟩

/-! ## Claims C8 and C9 -/

/-- C8: for every coverage line with a known module and 64-bit value `v`,
the parser splits `v` exactly into its high 32 bits and low 32 bits; a
nonzero high half yields an indirect-edge row
`(module_id, src_rva = high, dst_rva = low)` for `cov_S_edges`, and a zero
high half yields a block-hit row `(module_id, bb_rva = low)` for
`cov_S_blocks`. -/
theorem c8_parser_split (module_id value : Nat) (hv : value < 2 ^ 64) :
    dispatch_cov_value module_id value =
      if value / 2 ^ 32 ≠ 0 then
        CovEntry.edge module_id (value / 2 ^ 32) (value % 2 ^ 32)
      else
        CovEntry.block module_id (value % 2 ^ 32) := by
  have hlow : value &&& 0xFFFFFFFF = value % 2 ^ 32 := by
    have := Nat.and_pow_two_sub_one_eq_mod value 32
    norm_num at this ⊢
    omega
  have hdiv : value / 2 ^ 32 < 2 ^ 32 := by
    apply Nat.div_lt_of_lt_mul
    calc value < 2 ^ 64 := hv
    _ = 2 ^ 32 * 2 ^ 32 := by norm_num
  have hupper : (value >>> 32) &&& 0xFFFFFFFF = value / 2 ^ 32 := by
    rw [Nat.shiftRight_eq_div_pow]
    have := Nat.and_pow_two_sub_one_eq_mod (value / 2 ^ 32) 32
    norm_num at this ⊢
    omega
  simp only [dispatch_cov_value, hupper, hlow]

/-- Witness for C8: the bound is discharged at the concrete values
`0x100000002` (an indirect edge `1 → 2`) and `0x5` (a block hit). -/
theorem c8_parser_split_witness :
    (0x100000002 < 2 ^ 64 ∧
      dispatch_cov_value 3 0x100000002 =
        if (0x100000002 : Nat) / 2 ^ 32 ≠ 0 then
          CovEntry.edge 3 (0x100000002 / 2 ^ 32) (0x100000002 % 2 ^ 32)
        else
          CovEntry.block 3 (0x100000002 % 2 ^ 32)) ∧
    (0x5 < 2 ^ 64 ∧
      dispatch_cov_value 3 0x5 =
        if (0x5 : Nat) / 2 ^ 32 ≠ 0 then
          CovEntry.edge 3 (0x5 / 2 ^ 32) (0x5 % 2 ^ 32)
        else
          CovEntry.block 3 (0x5 % 2 ^ 32)) :=
  ⟨⟨by norm_num, c8_parser_split 3 0x100000002 (by norm_num)⟩,
   ⟨by norm_num, c8_parser_split 3 0x5 (by norm_num)⟩⟩

/-- C9: the claim says every exported block whose addresses are present in
`basic_blocks` carries `bb_start_va`/`bb_end_va` as hex strings, and every
attributed block carries `attribution.frontier_bb_rva` as a hex string
(null only when shared), including when the value is `0`.  The code uses
`hex(x) if x else None`, so the value `0` is exported as null: a block at
RVA 0 with `bb_start_va = 0` and a unique attribution to the frontier at
RVA 0 exports `bb_start_va = null` and `frontier_bb_rva = null`, while a
nonzero block behaves as claimed. -/
theorem c9_export_zero_address_null :
    export_block_obj 0 (some (0, 4)) (some (some 0, false)) =
      { bb_rva := "0x0"
        bb_start_va := none
        bb_end_va := some "0x4"
        attr_is_attributed := true
        attr_frontier_bb_rva := none
        attr_is_shared := false } ∧
    export_block_obj 16 (some (16, 20)) (some (some 16, false)) =
      { bb_rva := "0x10"
        bb_start_va := some "0x10"
        bb_end_va := some "0x14"
        attr_is_attributed := true
        attr_frontier_bb_rva := some "0x10"
        attr_is_shared := false } := by
  constructor <;> rfl

/-! ## Frontier lemmas and claims C1, C3, C10 -/

lemma lookup_label_spec {lbl : List BBLabel} {binary_id bb_rva : Int} {l : BBLabel}
    (h : lookup_label lbl binary_id bb_rva = some l) :
    l ∈ lbl ∧ l.binary_id = binary_id ∧ l.bb_rva = bb_rva := by
  refine ⟨List.mem_of_find?_eq_some h, ?_⟩
  have hp := List.find?_some h
  rw [decide_eq_true_eq] at hp
  exact hp

lemma lookup_label_of_mem {lbl : List BBLabel}
    (hPK : ∀ x ∈ lbl, ∀ y ∈ lbl, x.binary_id = y.binary_id → x.bb_rva = y.bb_rva → x = y)
    {l : BBLabel} (hl : l ∈ lbl) :
    lookup_label lbl l.binary_id l.bb_rva = some l := by
  have hs : (lbl.find? (fun x =>
      decide (x.binary_id = l.binary_id ∧ x.bb_rva = l.bb_rva))).isSome := by
    rw [List.find?_isSome]
    exact ⟨l, hl, by rw [decide_eq_true_eq]; exact ⟨rfl, rfl⟩⟩
  obtain ⟨l2, h2⟩ := Option.isSome_iff_exists.mp hs
  obtain ⟨h2mem, h2bid, h2rva⟩ := lookup_label_spec h2
  rw [lookup_label, h2, hPK l2 h2mem l hl h2bid h2rva]

lemma label_test_iff {lbl : List BBLabel} {binary_id bb_rva : Int} {p : BBLabel → Bool} :
    label_test lbl binary_id bb_rva p = true ↔
      ∃ l, lookup_label lbl binary_id bb_rva = some l ∧ p l = true := by
  rw [label_test]
  cases h : lookup_label lbl binary_id bb_rva with
  | none =>
    simp only [Bool.false_eq_true, false_iff]
    rintro ⟨l, hl, -⟩
    cases hl
  | some l =>
    constructor
    · intro hp
      exact ⟨l, rfl, hp⟩
    · rintro ⟨l2, hl2, hp⟩
      injection hl2 with hl2
      rw [hl2]
      exact hp

lemma mem_frontier_edge_rows {g : List GraphEdge} {lbl : List BBLabel} {e : GraphEdge} :
    e ∈ frontier_edge_rows g lbl ↔
      (e ∈ g ∧ e.edge_type ≠ GraphEdgeType.super_root ∧
        (∃ ls, lookup_label lbl e.binary_id e.src_bb_rva = some ls ∧ ls.in_A = 1) ∧
        (∃ ld, lookup_label lbl e.binary_id e.dst_bb_rva = some ld ∧ ld.is_new = 1)) ∨
      (e ∈ g ∧ e.edge_type = GraphEdgeType.super_root_orphan) := by
  rw [frontier_edge_rows, List.mem_append, List.mem_filter, List.mem_filter]
  constructor
  · rintro (⟨hg, hb⟩ | ⟨hg, hb⟩)
    · rw [Bool.and_eq_true, Bool.and_eq_true, decide_eq_true_eq] at hb
      obtain ⟨⟨hne, hsrc⟩, hdst⟩ := hb
      rw [label_test_iff] at hsrc hdst
      obtain ⟨ls, hls, hlsA⟩ := hsrc
      obtain ⟨ld, hld, hldN⟩ := hdst
      rw [decide_eq_true_eq] at hlsA hldN
      exact Or.inl ⟨hg, hne, ⟨ls, hls, hlsA⟩, ⟨ld, hld, hldN⟩⟩
    · rw [decide_eq_true_eq] at hb
      exact Or.inr ⟨hg, hb⟩
  · rintro (⟨hg, hne, ⟨ls, hls, hlsA⟩, ⟨ld, hld, hldN⟩⟩ | ⟨hg, hb⟩)
    · refine Or.inl ⟨hg, ?_⟩
      rw [Bool.and_eq_true, Bool.and_eq_true, decide_eq_true_eq]
      refine ⟨⟨hne, ?_⟩, ?_⟩
      · rw [label_test_iff]
        exact ⟨ls, hls, by rw [decide_eq_true_eq]; exact hlsA⟩
      · rw [label_test_iff]
        exact ⟨ld, hld, by rw [decide_eq_true_eq]; exact hldN⟩
    · exact Or.inr ⟨hg, by rw [decide_eq_true_eq]; exact hb⟩

lemma mem_frontier_candidates {g : List GraphEdge} {lbl : List BBLabel}
    {c : Int × Int × Int} :
    c ∈ frontier_candidates g lbl ↔
      ∃ e ∈ frontier_edge_rows g lbl, ∃ l,
        lookup_label lbl e.binary_id e.dst_bb_rva = some l ∧
        c = (e.binary_id, e.dst_bb_rva, l.func_id) := by
  rw [frontier_candidates, List.mem_dedup, List.mem_filterMap]
  constructor
  · rintro ⟨e, he, hmap⟩
    cases hl : lookup_label lbl e.binary_id e.dst_bb_rva with
    | none => rw [hl] at hmap; cases hmap
    | some l =>
      rw [hl] at hmap
      injection hmap with hmap
      exact ⟨e, he, l, hl, hmap.symm⟩
  · rintro ⟨e, he, l, hl, hc⟩
    exact ⟨e, he, by rw [hl, hc]; rfl⟩

lemma mem_identify_frontier_targets {g : List GraphEdge} {lbl : List BBLabel}
    {t : FrontierTarget} :
    t ∈ identify_frontier_targets g lbl ↔
      ∃ c ∈ frontier_candidates g lbl,
        t = FrontierTarget.mk c.1 c.2.1 c.2.2
          (classify_frontier_target g lbl c.1 c.2.1) := by
  rw [identify_frontier_targets, List.mem_map]
  constructor
  · rintro ⟨c, hc, ht⟩
    exact ⟨c, hc, ht.symm⟩
  · rintro ⟨c, hc, ht⟩
    exact ⟨c, hc, ht.symm⟩

lemma mem_super_root_orphan_edges {g : List GraphEdge} {lbl : List BBLabel}
    {e : GraphEdge} :
    e ∈ super_root_orphan_edges g lbl ↔
      ∃ l ∈ lbl, l.is_new = 1 ∧
        (¬ ∃ e2 ∈ g, e2.binary_id = l.binary_id ∧ e2.dst_bb_rva = l.bb_rva ∧
          e2.edge_type.is_super_root_like = false) ∧
        e = GraphEdge.mk l.binary_id (-1) l.bb_rva GraphEdgeType.super_root_orphan := by
  rw [super_root_orphan_edges, List.mem_dedup, List.mem_map]
  constructor
  · rintro ⟨l, hl, he⟩
    rw [List.mem_filter, Bool.and_eq_true, decide_eq_true_eq] at hl
    obtain ⟨hmem, hnew, hany⟩ := hl
    rw [Bool.not_eq_true', List.any_eq_false] at hany
    refine ⟨l, hmem, hnew, ?_, he.symm⟩
    rintro ⟨e2, he2, h1, h2, h3⟩
    have hq : (decide (e2.binary_id = l.binary_id ∧ e2.dst_bb_rva = l.bb_rva) &&
        !e2.edge_type.is_super_root_like) = true := by
      rw [Bool.and_eq_true, decide_eq_true_eq, Bool.not_eq_true']
      exact ⟨⟨h1, h2⟩, h3⟩
    exact hany e2 he2 hq
  · rintro ⟨l, hmem, hnew, hno, he⟩
    refine ⟨l, ?_, he.symm⟩
    rw [List.mem_filter, Bool.and_eq_true, decide_eq_true_eq]
    refine ⟨hmem, hnew, ?_⟩
    rw [Bool.not_eq_true', List.any_eq_false]
    intro e2 he2
    by_cases hd : e2.binary_id = l.binary_id ∧ e2.dst_bb_rva = l.bb_rva
    · by_cases hsrl : e2.edge_type.is_super_root_like = false
      · exact absurd ⟨e2, he2, hd.1, hd.2, hsrl⟩ hno
      · rw [Bool.not_eq_false] at hsrl
        rw [hsrl]
        simp
    · simp [hd]

/-- C3: after frontier identification over the orphan-augmented graph,
every `frontier_targets` row refers to a block labelled `is_new = 1` that
either has an incoming non-`super_root` edge whose source block is
labelled `in_A = 1`, or has an incoming `super_root_orphan` edge; and by
construction a `super_root_orphan` edge exists only for a new block with
no incoming edge of the CFG, direct-call or observed types.  `g` is the
graph before the orphan pass (so it contains no orphan edges), and the
labels carry their `(binary_id, bb_rva)` primary key. -/
theorem c3_frontier_target_invariant (g : List GraphEdge) (lbl : List BBLabel)
    (hPK : ∀ x ∈ lbl, ∀ y ∈ lbl,
      x.binary_id = y.binary_id → x.bb_rva = y.bb_rva → x = y)
    (hnoorph : ∀ e ∈ g, e.edge_type ≠ GraphEdgeType.super_root_orphan) :
    (∀ t ∈ identify_frontier_targets (graph_with_orphans g lbl) lbl,
      ∃ l, lookup_label lbl t.binary_id t.bb_rva = some l ∧ l.is_new = 1 ∧
        ((∃ e ∈ graph_with_orphans g lbl, e.binary_id = t.binary_id ∧
            e.dst_bb_rva = t.bb_rva ∧ e.edge_type ≠ GraphEdgeType.super_root ∧
            ∃ ls, lookup_label lbl e.binary_id e.src_bb_rva = some ls ∧ ls.in_A = 1) ∨
          orphan_entered (graph_with_orphans g lbl) t.binary_id t.bb_rva)) ∧
    (∀ e ∈ graph_with_orphans g lbl,
      e.edge_type = GraphEdgeType.super_root_orphan →
      ∃ l, lookup_label lbl e.binary_id e.dst_bb_rva = some l ∧ l.is_new = 1 ∧
        ¬ ∃ e2 ∈ graph_with_orphans g lbl, e2.binary_id = e.binary_id ∧
          e2.dst_bb_rva = e.dst_bb_rva ∧
          e2.edge_type.is_super_root_like = false) := by
  have horphan : ∀ e ∈ graph_with_orphans g lbl,
      e.edge_type = GraphEdgeType.super_root_orphan →
      ∃ l, lookup_label lbl e.binary_id e.dst_bb_rva = some l ∧ l.is_new = 1 ∧
        ¬ ∃ e2 ∈ graph_with_orphans g lbl, e2.binary_id = e.binary_id ∧
          e2.dst_bb_rva = e.dst_bb_rva ∧
          e2.edge_type.is_super_root_like = false := by
    intro e he het
    rcases List.mem_append.mp he with hg | ho
    · exact absurd het (hnoorph e hg)
    · obtain ⟨l, hmem, hnew, hno, hform⟩ := mem_super_root_orphan_edges.mp ho
      have hbid : e.binary_id = l.binary_id := by rw [hform]
      have hdst : e.dst_bb_rva = l.bb_rva := by rw [hform]
      refine ⟨l, ?_, hnew, ?_⟩
      · rw [hbid, hdst]
        exact lookup_label_of_mem hPK hmem
      · rintro ⟨e2, he2, h1, h2, h3⟩
        rcases List.mem_append.mp he2 with hg2 | ho2
        · exact hno ⟨e2, hg2, by rw [← hbid]; exact h1,
            by rw [← hdst]; exact h2, h3⟩
        · obtain ⟨l2, -, -, -, hform2⟩ := mem_super_root_orphan_edges.mp ho2
          rw [hform2] at h3
          cases h3
  refine ⟨?_, horphan⟩
  intro t ht
  obtain ⟨c, hc, htc⟩ := mem_identify_frontier_targets.mp ht
  obtain ⟨e, he, l, hl, hce⟩ := mem_frontier_candidates.mp hc
  have htbid : t.binary_id = e.binary_id := by rw [htc, hce]
  have htrva : t.bb_rva = e.dst_bb_rva := by rw [htc, hce]
  rcases mem_frontier_edge_rows.mp he with
    ⟨hg, hne, ⟨ls, hls, hlsA⟩, ⟨ld, hld, hldN⟩⟩ | ⟨hg, horph⟩
  · have hlld : l = ld := by
      rw [hl] at hld
      injection hld
    refine ⟨l, by rw [htbid, htrva]; exact hl, by rw [hlld]; exact hldN,
      Or.inl ⟨e, hg, htbid.symm, htrva.symm, hne, ls, hls, hlsA⟩⟩
  · obtain ⟨l2, hl2, hl2new, -⟩ := horphan e hg horph
    have hll2 : l = l2 := by
      rw [hl] at hl2
      injection hl2
    exact ⟨l, by rw [htbid, htrva]; exact hl, by rw [hll2]; exact hl2new,
      Or.inr ⟨e, hg, htbid.symm, htrva.symm, horph⟩⟩

/-- Witness for C3: labels `{100 : in_A, 200 : new}` with a single
`super_root` edge to 100; block 200 gets an orphan edge and becomes a
frontier target. -/
theorem c3_frontier_target_invariant_witness :
    ((∀ x ∈ [BBLabel.mk 1 7 100 1 1 0, BBLabel.mk 1 7 200 0 1 1],
        ∀ y ∈ [BBLabel.mk 1 7 100 1 1 0, BBLabel.mk 1 7 200 0 1 1],
          x.binary_id = y.binary_id → x.bb_rva = y.bb_rva → x = y) ∧
      (∀ e ∈ [GraphEdge.mk 1 (-1) 100 GraphEdgeType.super_root],
        e.edge_type ≠ GraphEdgeType.super_root_orphan)) ∧
    (∀ t ∈ identify_frontier_targets
        (graph_with_orphans [GraphEdge.mk 1 (-1) 100 GraphEdgeType.super_root]
          [BBLabel.mk 1 7 100 1 1 0, BBLabel.mk 1 7 200 0 1 1])
        [BBLabel.mk 1 7 100 1 1 0, BBLabel.mk 1 7 200 0 1 1],
      ∃ l, lookup_label [BBLabel.mk 1 7 100 1 1 0, BBLabel.mk 1 7 200 0 1 1]
          t.binary_id t.bb_rva = some l ∧ l.is_new = 1 ∧
        ((∃ e ∈ graph_with_orphans [GraphEdge.mk 1 (-1) 100 GraphEdgeType.super_root]
            [BBLabel.mk 1 7 100 1 1 0, BBLabel.mk 1 7 200 0 1 1],
            e.binary_id = t.binary_id ∧ e.dst_bb_rva = t.bb_rva ∧
            e.edge_type ≠ GraphEdgeType.super_root ∧
            ∃ ls, lookup_label [BBLabel.mk 1 7 100 1 1 0, BBLabel.mk 1 7 200 0 1 1]
              e.binary_id e.src_bb_rva = some ls ∧ ls.in_A = 1) ∨
          orphan_entered
            (graph_with_orphans [GraphEdge.mk 1 (-1) 100 GraphEdgeType.super_root]
              [BBLabel.mk 1 7 100 1 1 0, BBLabel.mk 1 7 200 0 1 1])
            t.binary_id t.bb_rva)) :=
  ⟨⟨by decide, by decide⟩,
    (c3_frontier_target_invariant [GraphEdge.mk 1 (-1) 100 GraphEdgeType.super_root]
      [BBLabel.mk 1 7 100 1 1 0, BBLabel.mk 1 7 200 0 1 1]
      (by decide) (by decide)).1⟩

lemma orphan_entered_iff {g : List GraphEdge} {binary_id bb_rva : Int} :
    orphan_entered g binary_id bb_rva ↔
      g.any (fun e => decide (e.binary_id = binary_id ∧ e.dst_bb_rva = bb_rva ∧
        e.edge_type = GraphEdgeType.super_root_orphan)) = true := by
  rw [orphan_entered, List.any_eq_true]
  simp only [decide_eq_true_eq]

lemma classify_eq_weak_of_orphan {g : List GraphEdge} {lbl : List BBLabel}
    {binary_id bb_rva : Int} (h : orphan_entered g binary_id bb_rva) :
    classify_frontier_target g lbl binary_id bb_rva = FrontierType.weak := by
  rw [classify_frontier_target, if_pos (orphan_entered_iff.mp h)]

lemma classify_strong_iff {g : List GraphEdge} {lbl : List BBLabel}
    {binary_id bb_rva : Int} (h : ¬ orphan_entered g binary_id bb_rva) :
    classify_frontier_target g lbl binary_id bb_rva = FrontierType.strong ↔
      ((∃ l ∈ incoming_src_labels g lbl binary_id bb_rva, l.in_A = 1) ∧
        ¬ ∃ l ∈ incoming_src_labels g lbl binary_id bb_rva, l.is_new = 1) := by
  rw [classify_frontier_target,
    if_neg (fun hc => h (orphan_entered_iff.mpr hc))]
  simp only []
  by_cases hcond : ((incoming_src_labels g lbl binary_id bb_rva).any
        (fun l => decide (l.in_A = 1)) &&
      !(incoming_src_labels g lbl binary_id bb_rva).any
        (fun l => decide (l.is_new = 1))) = true
  · rw [if_pos hcond]
    rw [Bool.and_eq_true, Bool.not_eq_true'] at hcond
    obtain ⟨hA, hN⟩ := hcond
    constructor
    · intro _
      refine ⟨?_, ?_⟩
      · rw [List.any_eq_true] at hA
        obtain ⟨l, hl, hd⟩ := hA
        rw [decide_eq_true_eq] at hd
        exact ⟨l, hl, hd⟩
      · rintro ⟨l, hl, hnew⟩
        have hc : (incoming_src_labels g lbl binary_id bb_rva).any
            (fun l => decide (l.is_new = 1)) = true :=
          List.any_eq_true.mpr ⟨l, hl, by rw [decide_eq_true_eq]; exact hnew⟩
        rw [hN] at hc
        cases hc
    · intro _
      rfl
  · rw [if_neg hcond]
    constructor
    · intro hcontra
      cases hcontra
    · rintro ⟨⟨l, hl, hA⟩, hnoNew⟩
      exfalso
      apply hcond
      rw [Bool.and_eq_true, Bool.not_eq_true']
      refine ⟨List.any_eq_true.mpr ⟨l, hl, by rw [decide_eq_true_eq]; exact hA⟩, ?_⟩
      by_cases hAN : (incoming_src_labels g lbl binary_id bb_rva).any
          (fun l => decide (l.is_new = 1)) = true
      · rw [List.any_eq_true] at hAN
        obtain ⟨l2, hl2, hd2⟩ := hAN
        rw [decide_eq_true_eq] at hd2
        exact absurd ⟨l2, hl2, hd2⟩ hnoNew
      · rw [Bool.not_eq_true] at hAN
        exact hAN

lemma mem_incoming_src_labels {g : List GraphEdge} {lbl : List BBLabel}
    {binary_id bb_rva : Int} {l : BBLabel} :
    l ∈ incoming_src_labels g lbl binary_id bb_rva ↔
      ∃ e ∈ g, e.binary_id = binary_id ∧ e.dst_bb_rva = bb_rva ∧
        e.edge_type.is_super_root_like = false ∧
        lookup_label lbl binary_id e.src_bb_rva = some l := by
  rw [incoming_src_labels, List.mem_filterMap]
  constructor
  · rintro ⟨e, he, hl⟩
    rw [List.mem_filter, Bool.and_eq_true, decide_eq_true_eq,
      Bool.not_eq_true'] at he
    exact ⟨e, he.1, he.2.1.1, he.2.1.2, he.2.2, hl⟩
  · rintro ⟨e, he, h1, h2, h3, hl⟩
    refine ⟨e, ?_, hl⟩
    rw [List.mem_filter, Bool.and_eq_true, decide_eq_true_eq, Bool.not_eq_true']
    exact ⟨he, ⟨h1, h2⟩, h3⟩

lemma sr_like_not_super_root {k : GraphEdgeType}
    (h1 : k.is_super_root_like = true) (h2 : k ≠ GraphEdgeType.super_root) :
    k = GraphEdgeType.super_root_orphan := by
  cases k <;> first
    | rfl
    | exact absurd rfl h2
    | cases h1

lemma lookup_label_neg_one {lbl : List BBLabel}
    (hsr : ∀ l ∈ lbl, l.bb_rva ≠ -1) (binary_id : Int) :
    lookup_label lbl binary_id (-1) = none := by
  rw [lookup_label, List.find?_eq_none]
  intro l hl
  rw [decide_eq_true_eq]
  rintro ⟨-, hrva⟩
  exact hsr l hl hrva

/-- C1: for every frontier target, the stored classification is `strong`
iff every incoming non-`super_root` edge has a source block labelled
`in_A = 1` and no incoming edge has a source block labelled `is_new = 1`;
in particular every orphan-entered target is `weak` (its orphan edge's
source is the synthetic super-root, which has no source block, so the
condition fails for it).  The hypotheses are the pipeline-shape facts:
labels never use the sentinel RVA `-1`, `super_root%` edges originate at
the super-root, every other edge's source carries a label, and the label
flags satisfy `in_A = 1 ∨ is_new = 1` exclusively (every `G_B` node is
B-covered, so `is_new = in_B ∧ ¬in_A` collapses to `¬in_A`). -/
theorem c1_frontier_classification (g : List GraphEdge) (lbl : List BBLabel)
    (hsr_lbl : ∀ l ∈ lbl, l.bb_rva ≠ -1)
    (hsr_src : ∀ e ∈ g, e.edge_type.is_super_root_like = true → e.src_bb_rva = -1)
    (hlab : ∀ e ∈ g, e.edge_type.is_super_root_like = false →
      ∃ l, lookup_label lbl e.binary_id e.src_bb_rva = some l)
    (hflag : ∀ l ∈ lbl, (l.in_A = 1 ∨ l.is_new = 1) ∧ ¬(l.in_A = 1 ∧ l.is_new = 1)) :
    ∀ t ∈ identify_frontier_targets g lbl,
      (orphan_entered g t.binary_id t.bb_rva →
        t.frontier_type = FrontierType.weak) ∧
      (t.frontier_type = FrontierType.strong ↔
        spec_strong_condition g lbl t.binary_id t.bb_rva) := by
  intro t ht
  obtain ⟨c, hc, htc⟩ := mem_identify_frontier_targets.mp ht
  have htb : t.binary_id = c.1 := by rw [htc]
  have htr : t.bb_rva = c.2.1 := by rw [htc]
  have htf : t.frontier_type = classify_frontier_target g lbl c.1 c.2.1 := by rw [htc]
  rw [htb, htr, htf]
  constructor
  · intro horph
    exact classify_eq_weak_of_orphan horph
  · by_cases horph : orphan_entered g c.1 c.2.1
    · rw [classify_eq_weak_of_orphan horph]
      constructor
      · intro hcon; cases hcon
      · rintro ⟨hall, -⟩
        obtain ⟨e0, he0, hb0, hd0, ht0⟩ := horph
        obtain ⟨l0, hl0, -⟩ := hall e0 he0 hb0 hd0
          (by rw [ht0]; intro hcon; cases hcon)
        rw [hsr_src e0 he0 (by rw [ht0]; rfl),
          lookup_label_neg_one hsr_lbl] at hl0
        cases hl0
    · rw [classify_strong_iff horph]
      constructor
      · rintro ⟨-, hnoNew⟩
        constructor
        · intro e he hbid hdst hne
          by_cases hsrl : e.edge_type.is_super_root_like = true
          · exact absurd ⟨e, he, hbid, hdst, sr_like_not_super_root hsrl hne⟩ horph
          · rw [Bool.not_eq_true] at hsrl
            obtain ⟨l, hl⟩ := hlab e he hsrl
            rw [hbid] at hl
            have hlin : l ∈ incoming_src_labels g lbl c.1 c.2.1 :=
              mem_incoming_src_labels.mpr ⟨e, he, hbid, hdst, hsrl, hl⟩
            have hlnew : l.is_new ≠ 1 := fun hnew => hnoNew ⟨l, hlin, hnew⟩
            have hmem := (lookup_label_spec hl).1
            rcases (hflag l hmem).1 with hA | hN
            · exact ⟨l, by rw [← hbid] at hl; exact hl, hA⟩
            · exact absurd hN hlnew
        · intro e he hbid hdst l hl
          by_cases hsrl : e.edge_type.is_super_root_like = true
          · rw [hsr_src e he hsrl, lookup_label_neg_one hsr_lbl] at hl
            cases hl
          · rw [Bool.not_eq_true] at hsrl
            rw [hbid] at hl
            have hlin : l ∈ incoming_src_labels g lbl c.1 c.2.1 :=
              mem_incoming_src_labels.mpr ⟨e, he, hbid, hdst, hsrl, hl⟩
            exact fun hnew => hnoNew ⟨l, hlin, hnew⟩
      · rintro ⟨hall, hnone⟩
        constructor
        · -- the frontier edge behind the candidate supplies an A-labelled source
          obtain ⟨e, he, lt, hlt, hce⟩ := mem_frontier_candidates.mp hc
          have hcb : c.1 = e.binary_id := by rw [hce]
          have hcr : c.2.1 = e.dst_bb_rva := by rw [hce]
          rcases mem_frontier_edge_rows.mp he with
            ⟨hg, hne, ⟨ls, hls, hlsA⟩, -⟩ | ⟨hg, hty⟩
          · by_cases hsrl : e.edge_type.is_super_root_like = true
            · exact absurd ⟨e, hg, hcb.symm, hcr.symm,
                sr_like_not_super_root hsrl hne⟩ horph
            · rw [Bool.not_eq_true] at hsrl
              refine ⟨ls, mem_incoming_src_labels.mpr
                ⟨e, hg, hcb.symm, hcr.symm, hsrl, ?_⟩, hlsA⟩
              rw [hcb]
              exact hls
          · exact absurd ⟨e, hg, hcb.symm, hcr.symm, hty⟩ horph
        · rintro ⟨l, hlin, hnew⟩
          obtain ⟨e, he, hbid, hdst, hsrl, hl⟩ := mem_incoming_src_labels.mp hlin
          rw [← hbid] at hl
          exact hnone e he hbid hdst l hl hnew

/-- Witness for C1: labels `{100 : in_A, 200 : new}`, a `super_root` edge
to 100 and an observed edge `100 → 200`; block 200 is a non-orphan
frontier target classified strong. -/
theorem c1_frontier_classification_witness :
    ((∀ l ∈ [BBLabel.mk 1 7 100 1 1 0, BBLabel.mk 1 7 200 0 1 1], l.bb_rva ≠ -1) ∧
      (∀ l ∈ [BBLabel.mk 1 7 100 1 1 0, BBLabel.mk 1 7 200 0 1 1],
        (l.in_A = 1 ∨ l.is_new = 1) ∧ ¬(l.in_A = 1 ∧ l.is_new = 1))) ∧
    (∀ t ∈ identify_frontier_targets
        [GraphEdge.mk 1 (-1) 100 GraphEdgeType.super_root,
          GraphEdge.mk 1 100 200 GraphEdgeType.observed_conditional]
        [BBLabel.mk 1 7 100 1 1 0, BBLabel.mk 1 7 200 0 1 1],
      (orphan_entered [GraphEdge.mk 1 (-1) 100 GraphEdgeType.super_root,
          GraphEdge.mk 1 100 200 GraphEdgeType.observed_conditional]
          t.binary_id t.bb_rva →
        t.frontier_type = FrontierType.weak) ∧
      (t.frontier_type = FrontierType.strong ↔
        spec_strong_condition
          [GraphEdge.mk 1 (-1) 100 GraphEdgeType.super_root,
            GraphEdge.mk 1 100 200 GraphEdgeType.observed_conditional]
          [BBLabel.mk 1 7 100 1 1 0, BBLabel.mk 1 7 200 0 1 1]
          t.binary_id t.bb_rva)) :=
  ⟨⟨by decide, by decide⟩,
    c1_frontier_classification
      [GraphEdge.mk 1 (-1) 100 GraphEdgeType.super_root,
        GraphEdge.mk 1 100 200 GraphEdgeType.observed_conditional]
      [BBLabel.mk 1 7 100 1 1 0, BBLabel.mk 1 7 200 0 1 1]
      (by decide) (by decide)
      (by
        intro e he hsrl
        rw [List.mem_cons, List.mem_singleton] at he
        rcases he with rfl | rfl
        · exact absurd hsrl (by decide)
        · exact ⟨BBLabel.mk 1 7 100 1 1 0, by decide⟩)
      (by decide)⟩

lemma bfs_collect_cons (adj : Int → List Int) (nb : List Int) (fuel : Nat)
    (current : Int) (rest visited acc : List Int) :
    bfs_collect adj nb (fuel + 1) (current :: rest) visited acc =
      bfs_collect adj nb fuel
        (bfs_enqueue visited rest (adj current)).2
        (bfs_enqueue visited rest (adj current)).1
        (if current ∈ nb then current :: acc else acc) := rfl

lemma bfs_collect_acc_sub (adj : Int → List Int) (nb : List Int) :
    ∀ (fuel : Nat) (queue visited acc : List Int),
      ∀ x ∈ acc, x ∈ bfs_collect adj nb fuel queue visited acc := by
  intro fuel
  induction fuel with
  | zero => intro queue visited acc x hx; rw [bfs_collect]; exact hx
  | succ k ih =>
    intro queue visited acc x hx
    cases queue with
    | nil => rw [bfs_collect]; exact hx
    | cons current rest =>
      rw [bfs_collect_cons]
      refine ih _ _ _ x ?_
      by_cases hnb : current ∈ nb
      · rw [if_pos hnb]; exact List.mem_cons_of_mem _ hx
      · rw [if_neg hnb]; exact hx

lemma bfs_collect_mem (adj : Int → List Int) (nb : List Int) :
    ∀ (fuel : Nat) (queue visited acc : List Int),
      ∀ x ∈ bfs_collect adj nb fuel queue visited acc, x ∈ acc ∨ x ∈ nb := by
  intro fuel
  induction fuel with
  | zero => intro queue visited acc x hx; rw [bfs_collect] at hx; exact Or.inl hx
  | succ k ih =>
    intro queue visited acc x hx
    cases queue with
    | nil => rw [bfs_collect] at hx; exact Or.inl hx
    | cons current rest =>
      rw [bfs_collect_cons] at hx
      rcases ih _ _ _ x hx with hx2 | hx2
      · by_cases hnb : current ∈ nb
        · rw [if_pos hnb] at hx2
          rcases List.mem_cons.mp hx2 with hx3 | hx3
          · exact Or.inr (hx3 ▸ hnb)
          · exact Or.inl hx3
        · rw [if_neg hnb] at hx2
          exact Or.inl hx2
      · exact Or.inr hx2

lemma bfs_collect_start_mem (adj : Int → List Int) (nb : List Int)
    (fuel : Nat) (hfuel : 1 ≤ fuel) (f : Int) (rest visited acc : List Int)
    (hf : f ∈ nb) :
    f ∈ bfs_collect adj nb fuel (f :: rest) visited acc := by
  obtain ⟨k, rfl⟩ : ∃ k, fuel = k + 1 := ⟨fuel - 1, by omega⟩
  rw [bfs_collect_cons]
  refine bfs_collect_acc_sub adj nb _ _ _ _ f ?_
  rw [if_pos hf]
  exact List.mem_cons_self _ _

lemma bfs_enqueue_spec (nbrs : List Int) :
    ∀ (visited queue : List Int), queue.Nodup → (∀ x ∈ queue, x ∈ visited) →
      (bfs_enqueue visited queue nbrs).2.Nodup ∧
      (∀ x ∈ (bfs_enqueue visited queue nbrs).2, x ∈ (bfs_enqueue visited queue nbrs).1) ∧
      (∀ x ∈ visited, x ∈ (bfs_enqueue visited queue nbrs).1) ∧
      (∀ x ∈ (bfs_enqueue visited queue nbrs).2, x ∈ queue ∨ x ∉ visited) := by
  induction nbrs with
  | nil =>
    intro visited queue hq hqv
    rw [bfs_enqueue]
    exact ⟨hq, hqv, fun x hx => hx, fun x hx => Or.inl hx⟩
  | cons n ns ih =>
    intro visited queue hq hqv
    rw [bfs_enqueue]
    by_cases hn : n ∈ visited
    · rw [if_pos hn]
      exact ih visited queue hq hqv
    · rw [if_neg hn]
      have hq2 : (queue ++ [n]).Nodup := by
        rw [List.nodup_append]
        exact ⟨hq, List.nodup_singleton _, by
          intro x hx hxn
          rw [List.mem_singleton] at hxn
          subst hxn
          exact hn (hqv x hx)⟩
      have hqv2 : ∀ x ∈ queue ++ [n], x ∈ n :: visited := by
        intro x hx
        rcases List.mem_append.mp hx with hx | hx
        · exact List.mem_cons_of_mem _ (hqv x hx)
        · rw [List.mem_singleton] at hx
          exact hx ▸ List.mem_cons_self _ _
      obtain ⟨h1, h2, h3, h4⟩ := ih (n :: visited) (queue ++ [n]) hq2 hqv2
      refine ⟨h1, h2, ?_, ?_⟩
      · intro x hx
        exact h3 x (List.mem_cons_of_mem _ hx)
      · intro x hx
        rcases h4 x hx with hx2 | hx2
        · rcases List.mem_append.mp hx2 with hx3 | hx3
          · exact Or.inl hx3
          · rw [List.mem_singleton] at hx3
            exact Or.inr (hx3 ▸ hn)
        · exact Or.inr (fun hc => hx2 (List.mem_cons_of_mem _ hc))

lemma bfs_collect_nodup (adj : Int → List Int) (nb : List Int) :
    ∀ (fuel : Nat) (queue visited acc : List Int),
      queue.Nodup → (∀ x ∈ queue, x ∈ visited) → acc.Nodup →
      (∀ x ∈ acc, x ∉ queue) → (∀ x ∈ acc, x ∈ visited) →
      (bfs_collect adj nb fuel queue visited acc).Nodup := by
  intro fuel
  induction fuel with
  | zero => intro queue visited acc _ _ ha _ _; rw [bfs_collect]; exact ha
  | succ k ih =>
    intro queue visited acc hq hqv ha haq hav
    cases queue with
    | nil => rw [bfs_collect]; exact ha
    | cons current rest =>
      rw [bfs_collect_cons]
      rw [List.nodup_cons] at hq
      obtain ⟨e1, e2, e3, e4⟩ := bfs_enqueue_spec (adj current) visited rest hq.2
        (fun x hx => hqv x (List.mem_cons_of_mem _ hx))
      have hcur_vis : current ∈ visited := hqv current (List.mem_cons_self _ _)
      have hacc2_nodup : (if current ∈ nb then current :: acc else acc).Nodup := by
        by_cases hnb : current ∈ nb
        · rw [if_pos hnb, List.nodup_cons]
          exact ⟨fun hc => haq current hc (List.mem_cons_self _ _), ha⟩
        · rw [if_neg hnb]; exact ha
      have hacc2_mem : ∀ x, x ∈ (if current ∈ nb then current :: acc else acc) →
          x = current ∨ x ∈ acc := by
        intro x hx
        by_cases hnb : current ∈ nb
        · rw [if_pos hnb] at hx
          exact List.mem_cons.mp hx
        · rw [if_neg hnb] at hx
          exact Or.inr hx
      refine ih _ _ _ e1 e2 hacc2_nodup ?_ ?_
      · intro x hx hxq
        rcases e4 x hxq with hx2 | hx2
        · rcases hacc2_mem x hx with rfl | hx3
          · exact hq.1 hx2
          · exact haq x hx3 (List.mem_cons_of_mem _ hx2)
        · rcases hacc2_mem x hx with rfl | hx3
          · exact hx2 hcur_vis
          · exact hx2 (hav x hx3)
      · intro x hx
        rcases hacc2_mem x hx with rfl | hx3
        · exact e3 x hcur_vis
        · exact e3 x (hav x hx3)

lemma filter_eq_self_le_one (a : Int) :
    ∀ (l : List Int), l.Nodup →
      (l.filter (fun x => decide (x = a))).length ≤ 1 := by
  intro l
  induction l with
  | nil => intro _; simp
  | cons x t ih =>
    intro hnd
    rw [List.nodup_cons] at hnd
    rw [List.filter_cons]
    by_cases hx : x = a
    · subst hx
      rw [if_pos (by rw [decide_eq_true_eq])]
      have ht : t.filter (fun y => decide (y = x)) = [] := by
        rw [List.filter_eq_nil_iff]
        intro y hy hyd
        rw [decide_eq_true_eq] at hyd
        exact hnd.1 (hyd ▸ hy)
      rw [ht]
      exact le_refl 1
    · rw [if_neg (by rw [decide_eq_true_eq]; exact hx)]
      exact ih hnd.2

lemma flatMap_filter_pair_le_one (R : Int → List Int) (f : Int) :
    ∀ (T : List Int), T.Nodup → (R f).Nodup →
      ((T.flatMap (fun t => (R t).map (fun n => (t, n)))).filter
        (fun p => decide (p = (f, f)))).length ≤ 1 := by
  intro T
  induction T with
  | nil => intro _ _; simp
  | cons t ts ih =>
    intro hnd hR
    rw [List.nodup_cons] at hnd
    rw [List.flatMap_cons, List.filter_append, List.length_append]
    by_cases htf : t = f
    · subst htf
      have h1 : (((R t).map (fun n => (t, n))).filter
          (fun p => decide (p = (t, t)))).length ≤ 1 := by
        rw [List.filter_map, List.length_map]
        have hcong : (R t).filter ((fun p => decide (p = (t, t))) ∘
            (fun n => (t, n))) = (R t).filter (fun n => decide (n = t)) := by
          apply List.filter_congr
          intro n _
          by_cases hn : n = t
          · subst hn; simp
          · have : ((t, n) : Int × Int) ≠ (t, t) :=
              fun hc => hn (congrArg Prod.snd hc)
            simp [hn, this]
        rw [hcong]
        exact filter_eq_self_le_one t (R t) hR
      have h2 : ((ts.flatMap (fun g => (R g).map (fun n => (g, n)))).filter
          (fun p => decide (p = (t, t)))) = [] := by
        rw [List.filter_eq_nil_iff]
        intro p hp hpd
        rw [decide_eq_true_eq] at hpd
        rw [List.mem_flatMap] at hp
        obtain ⟨g, hg, hmem⟩ := hp
        rw [List.mem_map] at hmem
        obtain ⟨n, hn, hgn⟩ := hmem
        have hgt : g = t := by rw [← hgn] at hpd; exact congrArg Prod.fst hpd
        exact hnd.1 (hgt ▸ hg)
      rw [h2]
      simpa using h1
    · have h1 : (((R t).map (fun n => (t, n))).filter
          (fun p => decide (p = (f, f)))) = [] := by
        rw [List.filter_eq_nil_iff]
        intro p hp hpd
        rw [decide_eq_true_eq] at hpd
        rw [List.mem_map] at hp
        obtain ⟨n, hn, hgn⟩ := hp
        rw [← hgn] at hpd
        exact htf (congrArg Prod.fst hpd)
      rw [h1]
      simpa using ih hnd.2 hR

lemma reach_unique_iff (R : Int → List Int) (f : Int) (T : List Int)
    (hT : T.Nodup) (hR : (R f).Nodup)
    (hff : (f, f) ∈ T.flatMap (fun t => (R t).map (fun n => (t, n)))) :
    ((((T.flatMap (fun t => (R t).map (fun n => (t, n)))).filter
        (fun p => decide (p.2 = f))).map (fun p => p.1)).length = 1 ↔
      ∀ p ∈ T.flatMap (fun t => (R t).map (fun n => (t, n))),
        p.2 = f → p.1 = f) := by
  set reach := T.flatMap (fun t => (R t).map (fun n => (t, n))) with hreach
  have hffs : f ∈ (reach.filter (fun p => decide (p.2 = f))).map (fun p => p.1) := by
    rw [List.mem_map]
    exact ⟨(f, f), by rw [List.mem_filter, decide_eq_true_eq]; exact ⟨hff, rfl⟩, rfl⟩
  constructor
  · intro hlen p hp hp2
    obtain ⟨x, hx⟩ := List.length_eq_one.mp hlen
    rw [hx, List.mem_singleton] at hffs
    have hp1 : p.1 ∈ (reach.filter (fun p => decide (p.2 = f))).map (fun p => p.1) := by
      rw [List.mem_map]
      exact ⟨p, by rw [List.mem_filter, decide_eq_true_eq]; exact ⟨hp, hp2⟩, rfl⟩
    rw [hx, List.mem_singleton] at hp1
    rw [hp1, ← hffs]
  · intro huni
    have hfeq : reach.filter (fun p => decide (p.2 = f)) =
        reach.filter (fun p => decide (p = (f, f))) := by
      apply List.filter_congr
      intro p hp
      by_cases hp2 : p.2 = f
      · have hp1 : p.1 = f := huni p hp hp2
        have hpe : p = (f, f) := Prod.ext hp1 hp2
        simp [hp2, hpe]
      · have hpe : p ≠ (f, f) := fun hc => hp2 (congrArg Prod.snd hc)
        simp [hp2, hpe]
    have hpos : 0 < ((reach.filter (fun p => decide (p.2 = f))).map
        (fun p => p.1)).length :=
      List.length_pos.mpr (fun hc => by rw [hc] at hffs; cases hffs)
    have hub := flatMap_filter_pair_le_one R f T hT hR
    rw [← hreach] at hub
    rw [List.length_map] at hpos ⊢
    rw [hfeq] at hpos ⊢
    omega

lemma frontier_candidates_func (g : List GraphEdge) (lbl : List BBLabel) :
    ∀ c ∈ frontier_candidates g lbl,
      ∃ l, lookup_label lbl c.1 c.2.1 = some l ∧ c.2.2 = l.func_id := by
  intro c hc
  obtain ⟨e, he, l, hl, hce⟩ := mem_frontier_candidates.mp hc
  refine ⟨l, ?_, by rw [hce]⟩
  have h1 : c.1 = e.binary_id := by rw [hce]
  have h2 : c.2.1 = e.dst_bb_rva := by rw [hce]
  rw [h1, h2]
  exact hl

lemma targets_bb_rvas_nodup (g : List GraphEdge) (lbl : List BBLabel) (binary_id : Int) :
    (((identify_frontier_targets g lbl).filter
      (fun t => decide (t.binary_id = binary_id))).map (fun t => t.bb_rva)).Nodup := by
  have hT : (identify_frontier_targets g lbl).Nodup := by
    rw [identify_frontier_targets]
    refine List.Nodup.map_on ?_ (List.nodup_dedup _)
    intro x _ y _ hxy
    have h1 : x.1 = y.1 := congrArg FrontierTarget.binary_id hxy
    have h2 : x.2.1 = y.2.1 := congrArg FrontierTarget.bb_rva hxy
    have h3 : x.2.2 = y.2.2 := congrArg FrontierTarget.func_id hxy
    exact Prod.ext h1 (Prod.ext h2 h3)
  refine List.Nodup.map_on ?_ (List.Nodup.filter _ hT)
  intro x hx y hy hxy
  rw [List.mem_filter, decide_eq_true_eq] at hx hy
  obtain ⟨cx, hcx, hxeq⟩ := mem_identify_frontier_targets.mp hx.1
  obtain ⟨cy, hcy, hyeq⟩ := mem_identify_frontier_targets.mp hy.1
  obtain ⟨lx, hlx, hfx⟩ := frontier_candidates_func g lbl cx hcx
  obtain ⟨ly, hly, hfy⟩ := frontier_candidates_func g lbl cy hcy
  have hxb : x.binary_id = cx.1 := by rw [hxeq]
  have hxr : x.bb_rva = cx.2.1 := by rw [hxeq]
  have hyb : y.binary_id = cy.1 := by rw [hyeq]
  have hyr : y.bb_rva = cy.2.1 := by rw [hyeq]
  have hb : cx.1 = cy.1 := by rw [← hxb, ← hyb, hx.2, hy.2]
  have hr : cx.2.1 = cy.2.1 := by rw [← hxr, ← hyr, hxy]
  have hlxy : lx = ly := by
    rw [hb, hr] at hlx
    rw [hlx] at hly
    injection hly
  have hcxy : cx = cy :=
    Prod.ext hb (Prod.ext hr (by rw [hfx, hfy, hlxy]))
  rw [hxeq, hyeq, hcxy]

lemma frontier_target_is_new (g : List GraphEdge) (lbl : List BBLabel)
    (horph : ∀ e ∈ g, e.edge_type = GraphEdgeType.super_root_orphan →
      ∃ l, lookup_label lbl e.binary_id e.dst_bb_rva = some l ∧ l.is_new = 1) :
    ∀ t ∈ identify_frontier_targets g lbl,
      ∃ l, lookup_label lbl t.binary_id t.bb_rva = some l ∧ l.is_new = 1 := by
  intro t ht
  obtain ⟨c, hc, htc⟩ := mem_identify_frontier_targets.mp ht
  obtain ⟨e, he, l, hl, hce⟩ := mem_frontier_candidates.mp hc
  have htb : t.binary_id = e.binary_id := by rw [htc, hce]
  have htr : t.bb_rva = e.dst_bb_rva := by rw [htc, hce]
  rcases mem_frontier_edge_rows.mp he with
    ⟨-, -, -, ⟨ld, hld, hldN⟩⟩ | ⟨hg, hty⟩
  · have : l = ld := by
      rw [hl] at hld
      injection hld
    exact ⟨l, by rw [htb, htr]; exact hl, by rw [this]; exact hldN⟩
  · obtain ⟨l2, hl2, hl2N⟩ := horph e hg hty
    have : l = l2 := by
      rw [hl] at hl2
      injection hl2
    exact ⟨l, by rw [htb, htr]; exact hl, by rw [this]; exact hl2N⟩

lemma compute_attribution_eq (reach : List (Int × Int))
    (new_blocks : List (Int × Int))
    (hkeys : ∀ p ∈ reach, ∃ q ∈ new_blocks, q.1 = p.2) :
    compute_attribution reach new_blocks =
      some (((reach.map (fun p => p.2)).dedup).map (fun n =>
        if ((reach.filter (fun p => decide (p.2 = n))).map
            (fun p => p.1)).length = 1 then
          AttributedBlock.mk n ((reach.filter (fun p => decide (p.2 = n))).map
            (fun p => p.1)).head? 0
        else AttributedBlock.mk n none 1)) := by
  rw [compute_attribution, if_pos ?_]
  rw [List.all_eq_true]
  intro n hn
  rw [List.mem_dedup, List.mem_map] at hn
  obtain ⟨p, hp, hpn⟩ := hn
  obtain ⟨q, hq, hqn⟩ := hkeys p hp
  rw [List.find?_isSome]
  exact ⟨q, hq, by rw [decide_eq_true_eq, hqn, hpn]⟩

lemma compute_reachability_eq (g : List GraphEdge) (lbl : List BBLabel)
    (targets : List FrontierTarget) (binary_id : Int) :
    compute_reachability g lbl targets binary_id =
      ((targets.filter (fun t => decide (t.binary_id = binary_id))).map
        (fun t => t.bb_rva)).flatMap
        (fun f => (bfs_collect (adjacency g binary_id)
          ((lbl.filter (fun l => decide (l.binary_id = binary_id ∧
            l.is_new = 1))).map (fun l => l.bb_rva))
          ((g.filter (fun e => decide (e.binary_id = binary_id))).length + 2)
          [f] [f] []).map (fun n => (f, n))) := rfl

/-- C10 (implicit): every frontier target `f` of a binary is recorded as
reachable from itself — `(binary, f, f)` lands in `frontier_reachability`,
because `f` is labelled `is_new = 1` and the BFS started at `f` visits `f`
first — and consequently `f` appears as a new block in `bb_attributed_to`:
uniquely attributed to itself when no other frontier reaches it, shared
otherwise.  The hypothesis is the pipeline-shape fact that every
`super_root_orphan` edge points at an `is_new = 1` label (established by
construction, cf. C3). -/
theorem c10_frontier_self_attribution (g : List GraphEdge) (lbl : List BBLabel)
    (binary_id : Int)
    (horph : ∀ e ∈ g, e.edge_type = GraphEdgeType.super_root_orphan →
      ∃ l, lookup_label lbl e.binary_id e.dst_bb_rva = some l ∧ l.is_new = 1) :
    ∀ t ∈ identify_frontier_targets g lbl, t.binary_id = binary_id →
      (t.bb_rva, t.bb_rva) ∈ compute_reachability g lbl
        (identify_frontier_targets g lbl) binary_id ∧
      ∃ rows, compute_attribution
          (compute_reachability g lbl (identify_frontier_targets g lbl) binary_id)
          ((lbl.filter (fun l => decide (l.binary_id = binary_id ∧
            l.is_new = 1))).map (fun l => (l.bb_rva, l.func_id))) = some rows ∧
        ∃ r ∈ rows, r.new_bb_rva = t.bb_rva ∧
          (r.is_shared = 0 ↔ ∀ p ∈ compute_reachability g lbl
              (identify_frontier_targets g lbl) binary_id,
            p.2 = t.bb_rva → p.1 = t.bb_rva) ∧
          (r.is_shared = 0 → r.frontier_bb_rva = some t.bb_rva) ∧
          (r.is_shared ≠ 0 → r.is_shared = 1 ∧ r.frontier_bb_rva = none) := by
  intro t ht htb
  have hfT : t.bb_rva ∈ ((identify_frontier_targets g lbl).filter
      (fun x => decide (x.binary_id = binary_id))).map (fun x => x.bb_rva) := by
    rw [List.mem_map]
    exact ⟨t, by rw [List.mem_filter, decide_eq_true_eq]; exact ⟨ht, htb⟩, rfl⟩
  obtain ⟨l, hl, hlnew⟩ := frontier_target_is_new g lbl horph t ht
  obtain ⟨hlmem, hlbid, hlrva⟩ := lookup_label_spec hl
  have hfnb : t.bb_rva ∈ (lbl.filter (fun x => decide (x.binary_id = binary_id ∧
      x.is_new = 1))).map (fun x => x.bb_rva) := by
    rw [List.mem_map]
    exact ⟨l, by
      rw [List.mem_filter, decide_eq_true_eq]
      exact ⟨hlmem, by rw [hlbid, htb], hlnew⟩, hlrva⟩
  have hff : (t.bb_rva, t.bb_rva) ∈ compute_reachability g lbl
      (identify_frontier_targets g lbl) binary_id := by
    rw [compute_reachability_eq, List.mem_flatMap]
    refine ⟨t.bb_rva, hfT, ?_⟩
    rw [List.mem_map]
    exact ⟨t.bb_rva,
      bfs_collect_start_mem _ _ _ (by omega) t.bb_rva [] [t.bb_rva] [] hfnb, rfl⟩
  have hkeys : ∀ p ∈ compute_reachability g lbl
      (identify_frontier_targets g lbl) binary_id,
      ∃ q ∈ (lbl.filter (fun x => decide (x.binary_id = binary_id ∧
        x.is_new = 1))).map (fun x => (x.bb_rva, x.func_id)), q.1 = p.2 := by
    intro p hp
    rw [compute_reachability_eq, List.mem_flatMap] at hp
    obtain ⟨x, hx, hmem⟩ := hp
    rw [List.mem_map] at hmem
    obtain ⟨n, hn, hpn⟩ := hmem
    have hnnb := bfs_collect_mem _ _ _ _ _ _ n hn
    rcases hnnb with hc | hnnb
    · cases hc
    · rw [List.mem_map] at hnnb
      obtain ⟨l2, hl2, hl2n⟩ := hnnb
      refine ⟨(l2.bb_rva, l2.func_id), ?_, ?_⟩
      · rw [List.mem_map]
        exact ⟨l2, hl2, rfl⟩
      · rw [← hpn]
        exact hl2n
  have hattr := compute_attribution_eq _ _ hkeys
  refine ⟨hff, _, hattr, ?_⟩
  have hfk : t.bb_rva ∈ ((compute_reachability g lbl
      (identify_frontier_targets g lbl) binary_id).map (fun p => p.2)).dedup := by
    rw [List.mem_dedup, List.mem_map]
    exact ⟨(t.bb_rva, t.bb_rva), hff, rfl⟩
  refine ⟨_, List.mem_map.mpr ⟨t.bb_rva, hfk, rfl⟩, ?_⟩
  have hTnd := targets_bb_rvas_nodup g lbl binary_id
  have hRnd : (bfs_collect (adjacency g binary_id)
      ((lbl.filter (fun x => decide (x.binary_id = binary_id ∧
        x.is_new = 1))).map (fun x => x.bb_rva))
      ((g.filter (fun e => decide (e.binary_id = binary_id))).length + 2)
      [t.bb_rva] [t.bb_rva] []).Nodup := by
    refine bfs_collect_nodup _ _ _ _ _ _ (List.nodup_singleton _) ?_
      List.nodup_nil ?_ ?_ <;> simp
  have hff2 := hff
  rw [compute_reachability_eq] at hff2
  have hiff := reach_unique_iff _ t.bb_rva _ hTnd hRnd hff2
  rw [← compute_reachability_eq] at hiff
  by_cases hlen : (((compute_reachability g lbl
      (identify_frontier_targets g lbl) binary_id).filter
      (fun p => decide (p.2 = t.bb_rva))).map (fun p => p.1)).length = 1
  · rw [if_pos hlen]
    refine ⟨rfl, ?_, ?_, ?_⟩
    · exact ⟨fun _ => hiff.mp hlen, fun _ => rfl⟩
    · intro _
      obtain ⟨x, hx⟩ := List.length_eq_one.mp hlen
      have hfin : t.bb_rva ∈ ((compute_reachability g lbl
          (identify_frontier_targets g lbl) binary_id).filter
          (fun p => decide (p.2 = t.bb_rva))).map (fun p => p.1) := by
        rw [List.mem_map]
        exact ⟨(t.bb_rva, t.bb_rva),
          by rw [List.mem_filter, decide_eq_true_eq]; exact ⟨hff, rfl⟩, rfl⟩
      rw [hx, List.mem_singleton] at hfin
      rw [hx]
      rw [← hfin]
      rfl
    · intro hc
      exact absurd rfl hc
  · rw [if_neg hlen]
    refine ⟨rfl, ?_, ?_, ?_⟩
    · constructor
      · intro hc
        cases hc
      · intro huni
        exact absurd (hiff.mpr huni) hlen
    · intro hc
      cases hc
    · intro _
      exact ⟨rfl, rfl⟩

/-- Witness for C10: labels `{100 : in_A, 200 : new}` with a `super_root`
edge to 100 and an orphan edge to 200, so block 200 is a frontier target
of binary 1. -/
theorem c10_frontier_self_attribution_witness :
    (∀ e ∈ [GraphEdge.mk 1 (-1) 100 GraphEdgeType.super_root,
        GraphEdge.mk 1 (-1) 200 GraphEdgeType.super_root_orphan],
      e.edge_type = GraphEdgeType.super_root_orphan →
      ∃ l, lookup_label [BBLabel.mk 1 7 100 1 1 0, BBLabel.mk 1 7 200 0 1 1]
        e.binary_id e.dst_bb_rva = some l ∧ l.is_new = 1) ∧
    (∀ t ∈ identify_frontier_targets
        [GraphEdge.mk 1 (-1) 100 GraphEdgeType.super_root,
          GraphEdge.mk 1 (-1) 200 GraphEdgeType.super_root_orphan]
        [BBLabel.mk 1 7 100 1 1 0, BBLabel.mk 1 7 200 0 1 1],
      t.binary_id = 1 →
      (t.bb_rva, t.bb_rva) ∈ compute_reachability
        [GraphEdge.mk 1 (-1) 100 GraphEdgeType.super_root,
          GraphEdge.mk 1 (-1) 200 GraphEdgeType.super_root_orphan]
        [BBLabel.mk 1 7 100 1 1 0, BBLabel.mk 1 7 200 0 1 1]
        (identify_frontier_targets
          [GraphEdge.mk 1 (-1) 100 GraphEdgeType.super_root,
            GraphEdge.mk 1 (-1) 200 GraphEdgeType.super_root_orphan]
          [BBLabel.mk 1 7 100 1 1 0, BBLabel.mk 1 7 200 0 1 1]) 1 ∧
      ∃ rows, compute_attribution
          (compute_reachability
            [GraphEdge.mk 1 (-1) 100 GraphEdgeType.super_root,
              GraphEdge.mk 1 (-1) 200 GraphEdgeType.super_root_orphan]
            [BBLabel.mk 1 7 100 1 1 0, BBLabel.mk 1 7 200 0 1 1]
            (identify_frontier_targets
              [GraphEdge.mk 1 (-1) 100 GraphEdgeType.super_root,
                GraphEdge.mk 1 (-1) 200 GraphEdgeType.super_root_orphan]
              [BBLabel.mk 1 7 100 1 1 0, BBLabel.mk 1 7 200 0 1 1]) 1)
          (([BBLabel.mk 1 7 100 1 1 0, BBLabel.mk 1 7 200 0 1 1].filter
            (fun l => decide (l.binary_id = 1 ∧ l.is_new = 1))).map
            (fun l => (l.bb_rva, l.func_id))) = some rows ∧
        ∃ r ∈ rows, r.new_bb_rva = t.bb_rva ∧
          (r.is_shared = 0 ↔ ∀ p ∈ compute_reachability
              [GraphEdge.mk 1 (-1) 100 GraphEdgeType.super_root,
                GraphEdge.mk 1 (-1) 200 GraphEdgeType.super_root_orphan]
              [BBLabel.mk 1 7 100 1 1 0, BBLabel.mk 1 7 200 0 1 1]
              (identify_frontier_targets
                [GraphEdge.mk 1 (-1) 100 GraphEdgeType.super_root,
                  GraphEdge.mk 1 (-1) 200 GraphEdgeType.super_root_orphan]
                [BBLabel.mk 1 7 100 1 1 0, BBLabel.mk 1 7 200 0 1 1]) 1,
            p.2 = t.bb_rva → p.1 = t.bb_rva) ∧
          (r.is_shared = 0 → r.frontier_bb_rva = some t.bb_rva) ∧
          (r.is_shared ≠ 0 → r.is_shared = 1 ∧ r.frontier_bb_rva = none)) :=
  ⟨by
    intro e he hty
    rw [List.mem_cons, List.mem_singleton] at he
    rcases he with rfl | rfl
    · exact absurd hty (by decide)
    · exact ⟨BBLabel.mk 1 7 200 0 1 1, by decide, rfl⟩,
    c10_frontier_self_attribution
      [GraphEdge.mk 1 (-1) 100 GraphEdgeType.super_root,
        GraphEdge.mk 1 (-1) 200 GraphEdgeType.super_root_orphan]
      [BBLabel.mk 1 7 100 1 1 0, BBLabel.mk 1 7 200 0 1 1] 1
      (by
        intro e he hty
        rw [List.mem_cons, List.mem_singleton] at he
        rcases he with rfl | rfl
        · exact absurd hty (by decide)
        · exact ⟨BBLabel.mk 1 7 200 0 1 1, by decide, rfl⟩)⟩

end CovDiff
